import Mathlib

/-!
Verification development for the bundle builder of the bjvn parallel viewer
(source: `src/json_builder1.py`).  The Python module converts a Vietnamese
OCR transcript, an English translation and a directory of page images into a
"bundle": page-level Spans grouped into Sections, section-level SectionBlocks
with pagination state, an annotation sidecar and a section↔page index, plus a
validator over the assembled bundle.

This file gives a shallow embedding of the functions of that module.  Python
dicts are modelled as insertion-ordered association lists (`List (k × v)`),
Python strings as Lean `String`/`List Char` (whitespace classes are the ASCII
whitespace characters used by the transcripts), Python `int` page numbers as
`Nat` (they arise from digit extraction, hence are non-negative).  The keys of
the Python `page_to_section` dict are `str(page)`; since `str` is injective on
non-negative integers they are modelled by the page number itself, and are
rendered as decimal strings only at the serialization boundary.
-/

namespace JVB

/-! ## Character classes and basic string helpers -/

/-- The horizontal-whitespace class of the regex `[ \t\r\f\v]+` used by
`_norm` (`_WHITESPACE_RE`). -/
def isHWS (c : Char) : Bool :=
  c = ' ' || c = '\t' || c = '\r' || c = '\x0b' || c = '\x0c'

/-- The whitespace set stripped by Python `str.strip()` (ASCII part). -/
def isWS (c : Char) : Bool :=
  isHWS c || c = '\n'

/-- Drop leading and trailing characters satisfying `p` (Python `str.strip`
restricted to a character class). -/
def stripBy (p : Char → Bool) (l : List Char) : List Char :=
  ((l.dropWhile p).reverse.dropWhile p).reverse

/-- Python `s.strip()` on the character-list level. -/
def stripL (l : List Char) : List Char := stripBy isWS l

/-- Python `s.strip()` on strings. -/
def pstrip (s : String) : String := String.mk (stripL s.data)

/-- Python string comparison `a < b`: lexicographic by code point (the order
`sorted` uses on filenames). -/
def lexLt : List Char → List Char → Bool
  | [], [] => false
  | [], _ :: _ => true
  | _ :: _, [] => false
  | a :: as, b :: bs => if a < b then true else if b < a then false else lexLt as bs

/-- Python `str.lower()` (ASCII letters). -/
def strLower (s : String) : String := String.mk (s.data.map Char.toLower)

/-- The two replaces `s.replace("\r\n", "\n").replace("\r", "\n")` at the
start of `_norm`: every CRLF pair and every lone CR becomes a newline. -/
def fixCR : List Char → List Char
  | [] => []
  | [c] => if c = '\r' then ['\n'] else [c]
  | c :: d :: rest =>
    if c = '\r' then
      if d = '\n' then '\n' :: fixCR rest
      else '\n' :: fixCR (d :: rest)
    else c :: fixCR (d :: rest)

theorem dropWhile_len_le (p : Char → Bool) (l : List Char) :
    (l.dropWhile p).length ≤ l.length := by
  induction l with
  | nil => simp [List.dropWhile]
  | cons c rest ih =>
    by_cases h : p c
    · simp [List.dropWhile, h]; omega
    · simp [List.dropWhile, h]

/-- Worker for `collapseNL`: `seen` counts the newlines of the current run
already consumed; the first two newlines of a run are emitted, further ones
are dropped. -/
def collapseNLAux (seen : Nat) : List Char → List Char
  | [] => []
  | c :: rest =>
    if c = '\n' then
      (if seen < 2 then ['\n'] else []) ++ collapseNLAux (seen + 1) rest
    else c :: collapseNLAux 0 rest

/-- The substitution `_MULTI_NEWLINE_RE.sub("\n\n", s)`: every run of two or
more newlines is replaced by exactly two newlines. -/
def collapseNL (l : List Char) : List Char := collapseNLAux 0 l

/-- Python `s.split("\n")`. -/
def splitNL : List Char → List (List Char)
  | [] => [[]]
  | c :: rest =>
    if c = '\n' then [] :: splitNL rest
    else
      match splitNL rest with
      | [] => [[c]]
      | ln :: lns => (c :: ln) :: lns

/-- Python `"\n".join(lines)` on the character-list level. -/
def joinNL : List (List Char) → List Char
  | [] => []
  | [x] => x
  | x :: y :: xs => x ++ '\n' :: joinNL (y :: xs)

/-- Worker for `collapseHW`: `inRun` records whether the previous character
was horizontal whitespace (whose run already emitted its single space). -/
def collapseHWAux (inRun : Bool) : List Char → List Char
  | [] => []
  | c :: rest =>
    if isHWS c then
      (if inRun then [] else [' ']) ++ collapseHWAux true rest
    else c :: collapseHWAux false rest

/-- The substitution `_WHITESPACE_RE.sub(" ", line)`: every run of horizontal
whitespace becomes a single space. -/
def collapseHW (l : List Char) : List Char := collapseHWAux false l

/-- The per-line step of `_norm`: `_WHITESPACE_RE.sub(" ", ln).strip()`. -/
def lineNorm (l : List Char) : List Char := stripL (collapseHW l)

/-- The whole of `_norm` on the character-list level:
line endings unified, string stripped, newline runs collapsed, each line
whitespace-collapsed and stripped, then rejoined and stripped. -/
def normL (l : List Char) : List Char :=
  stripL (joinNL ((splitNL (collapseNL (stripL (fixCR l)))).map lineNorm))

/-- The source's `_norm` whitespace normalizer. -/
def norm (s : String) : String := String.mk (normL s.data)

/-! ## Digit extraction (`_extract_digits`) -/

/-- The first maximal run of digits in a character list, if any
(the regex search `(\d+)`). -/
def firstDigitRun : List Char → Option (List Char)
  | [] => none
  | c :: rest =>
    if c.isDigit then some (c :: rest.takeWhile Char.isDigit)
    else firstDigitRun rest

/-- Decimal value of a digit list. -/
def digitsToNat (l : List Char) : Nat :=
  l.foldl (fun acc c => acc * 10 + (c.toNat - 48)) 0

/-- `_extract_digits`: parse the first run of digits in `s`, if any. -/
def extractDigits (s : String) : Option Nat :=
  (firstDigitRun s.data).map digitsToNat

/-! ## XML tree model

`xml.etree.ElementTree` elements carry a tag, attributes, the text before
the first child (`text`), the list of children, and the text that follows the
element's own closing tag inside its parent (`tail`). -/

inductive XML where
  | elem (tag : String) (attrs : List (String × String)) (textStr : String)
      (children : List XML) (tailStr : String)
deriving Repr

namespace XML

def tag : XML → String
  | .elem t _ _ _ _ => t

def attrs : XML → List (String × String)
  | .elem _ a _ _ _ => a

def textStr : XML → String
  | .elem _ _ tx _ _ => tx

def children : XML → List XML
  | .elem _ _ _ cs _ => cs

def tailStr : XML → String
  | .elem _ _ _ _ tl => tl

/-- `(node.tag or "").lower()`. -/
def tagLower (x : XML) : String := strLower x.tag

/-- `node.attrib.get(key, "")`. -/
def attrGet (x : XML) (key : String) : String := (x.attrs.lookup key).getD ""

end XML

mutual

/-- `"".join(node.itertext())`: the element's text followed by, for each
child in order, the child's itertext and then the child's tail. -/
def itertext : XML → String
  | .elem _ _ tx cs _ => tx ++ itertextList cs

def itertextList : List XML → String
  | [] => ""
  | c :: cs => itertext c ++ c.tailStr ++ itertextList cs

end

mutual

/-- Document-order traversal (`root.iter()`): the node itself, then each
child's subtree. -/
def preorder : XML → List XML
  | .elem t a tx cs tl => .elem t a tx cs tl :: preorderList cs

def preorderList : List XML → List XML
  | [] => []
  | c :: cs => preorder c ++ preorderList cs

end

/-! ## Vietnamese OCR parsing (`parse_vi_ocr_xml`) -/

/-- `buckets.setdefault(pg, []).append(x)` on an insertion-ordered dict. -/
def bpush {α : Type} : List (Nat × List α) → Nat → α → List (Nat × List α)
  | [], pg, x => [(pg, [x])]
  | (k, l) :: rest, pg, x =>
    if k = pg then (k, l ++ [x]) :: rest else (k, l) :: bpush rest pg x

/-- State of the VI segmenter: current page cursor and the per-page chunk
buckets. -/
structure ViState where
  page : Nat
  buckets : List (Nat × List String)
deriving Repr, DecidableEq

/-- One step of the `for node in root.iter()` loop of `parse_vi_ocr_xml`.
`isRoot` records whether `node is root` (the root contributes only its own
`text`, other nodes contribute their whole `itertext`). -/
def viStep (st : ViState) (isRoot : Bool) (node : XML) : ViState :=
  if node.tagLower = "pagebreak" then
    match extractDigits (node.attrGet "page") with
    | some n => { st with page := n }
    | none => st
  else
    let txt := if isRoot then node.textStr else itertext node
    if pstrip txt ≠ "" then { st with buckets := bpush st.buckets st.page txt }
    else st

/-- The document-order node list traversed by `parse_vi_ocr_xml`, each node
tagged with whether it is the root. -/
def viTraversal (root : XML) : List (Bool × XML) :=
  (true, root) :: (preorderList root.children).map (fun n => (false, n))

/-- Fold the VI step over a node list. -/
def viFold (l : List (Bool × XML)) (st : ViState) : ViState :=
  l.foldl (fun s p => viStep s p.1 p.2) st

/-- The buckets produced by `parse_vi_ocr_xml` before joining. -/
def viBuckets (root : XML) : List (Nat × List String) :=
  (viFold (viTraversal root) ⟨1, []⟩).buckets

/-- `parse_vi_ocr_xml`: per-page text, chunks joined by a single newline. -/
def parse_vi_ocr_xml (root : XML) : List (Nat × String) :=
  (viBuckets root).map (fun pr => (pr.1, String.intercalate "\n" pr.2))

/-- All chunks stored in all buckets (used to compare against the chunks
reachable in the input tree). -/
def allChunks (buckets : List (Nat × List String)) : List String :=
  buckets.flatMap (fun pr => pr.2)

/-- Spec-side notion for claim C4: the non-blank text chunks reachable from
a transcript root, namely the root's own text and, for every descendant, its
text and its tail.  (The root's tail lies outside the document.) -/
def reachableChunks (x : XML) : List String :=
  (if pstrip x.textStr ≠ "" then [x.textStr] else []) ++
    (preorderList x.children).flatMap (fun n =>
      (if pstrip n.textStr ≠ "" then [n.textStr] else []) ++
        (if pstrip n.tailStr ≠ "" then [n.tailStr] else []))

/-! ## Image enumeration (`_iter_unannotated_images`, `_pages_from_images`) -/

/-- Is `needle` a contiguous substring of `hay`? -/
def isSubstr (needle hay : List Char) : Bool :=
  hay.tails.any (fun t => needle.isPrefixOf t)

/-- `pathlib` name splitting: the suffix starts at the last dot, provided it
is neither the first nor the last character of the name. -/
def splitExt (name : String) : String × String :=
  let cs := name.data
  match (List.range cs.length).filter (fun i => cs.getD i ' ' = '.') |>.getLast? with
  | some i =>
    if 0 < i ∧ i < cs.length - 1 then (String.mk (cs.take i), String.mk (cs.drop i))
    else (name, "")
  | none => (name, "")

def stemOf (name : String) : String := (splitExt name).1
def suffixOf (name : String) : String := (splitExt name).2

/-- Stable sort by a strict-less boolean relation: insertion sort that keeps
an element before all later elements it is not greater than.  This is the
result of Python's stable `sorted` for any strict weak order. -/
def insLt {α : Type} (lt : α → α → Bool) (x : α) : List α → List α
  | [] => [x]
  | y :: ys => if lt y x then y :: insLt lt x ys else x :: y :: ys

def sortByLt {α : Type} (lt : α → α → Bool) : List α → List α
  | [] => []
  | x :: xs => insLt lt x (sortByLt lt xs)

/-- `_iter_unannotated_images`: files with a common image extension whose
name contains `unannotated_page` (case-insensitively), sorted by name. -/
def iterUnannotatedImages (names : List String) : List String :=
  sortByLt (fun a b => lexLt a.data b.data)
    (names.filter (fun nm =>
      (strLower (suffixOf nm) = ".png" || strLower (suffixOf nm) = ".jpg"
        || strLower (suffixOf nm) = ".jpeg")
      && isSubstr "unannotated_page".data (strLower nm).data))

/-- A discovered page image: page number and image path. -/
structure PageImage where
  page : Nat
  image : String
deriving Repr, DecidableEq

/-- Fueled worker for the `while fallback_counter in used_numbers` loop. -/
def nextFreeAux : Nat → List Nat → Nat → Nat
  | 0, _, k => k
  | fuel + 1, used, k => if k ∈ used then nextFreeAux fuel used (k + 1) else k

/-- The `while fallback_counter in used_numbers` loop: the first integer at
or above `k` that is not in `used`.  The loop body runs at most once per
member of `used` (the candidates are distinct), so `used.length + 1` steps
of fuel always suffice to reproduce the loop exactly. -/
def nextFree (used : List Nat) (k : Nat) : Nat :=
  nextFreeAux (used.length + 1) used k

/-- Python `a or b or 0` on optional non-negative ints: the first value that
is a truthy (non-zero) int, else 0. -/
def orFalsy (a b : Option Nat) : Nat :=
  match a with
  | some n => if n ≠ 0 then n else match b with
    | some m => m
    | none => 0
  | none => match b with
    | some m => m
    | none => 0

/-- Loop body state of `_pages_from_images`. -/
structure PagesAcc where
  used : List Nat
  fallback : Nat
  pages : List PageImage
deriving Repr

/-- One iteration of the image loop of `_pages_from_images`. -/
def pagesStep (acc : PagesAcc) (nm : String) : PagesAcc :=
  let num := orFalsy (extractDigits (stemOf nm)) (extractDigits nm)
  if num = 0 then
    let n := nextFree acc.used acc.fallback
    { used := n :: acc.used, fallback := n + 1,
      pages := acc.pages ++ [⟨n, "/images/" ++ nm⟩] }
  else
    { used := num :: acc.used, fallback := acc.fallback,
      pages := acc.pages ++ [⟨num, "/images/" ++ nm⟩] }

/-- `_pages_from_images`: enumerate page images in name order, extracting the
page number from the first digit run of the stem (else the name), assigning
the next unused fallback integer if that yields 0 or nothing.  (The
`warnings.warn` calls are logging only and are not modelled.) -/
def pagesFromImages (names : List String) : List PageImage :=
  ((sortByLt (fun a b : String => lexLt a.data b.data) (iterUnannotatedImages names)).foldl
    pagesStep ⟨[], 1, []⟩).pages

/-! ## Data structures (`SpanAlign`, `Span`, `Section`, `SectionBlock`,
`ValidationIssue`, `Bundle`, `EnParseResult`, `SectionMeta`) -/

structure SpanAlign where
  status : String
  method : Option String
  source : Option String
deriving Repr, DecidableEq

structure Span where
  aid : String
  page : Nat
  vi : String
  en : String
  align : Option SpanAlign
deriving Repr, DecidableEq

structure Section where
  sid : String
  title_vi : String
  title_en : String
  spans : List Span
deriving Repr, DecidableEq

/-- The `pagination` dict of a `SectionBlock`
(`{target_pages, status, breaks, method}`). -/
structure Pagination where
  target_pages : List Nat
  status : String
  breaks : List Nat
  method : Option String
deriving Repr, DecidableEq

structure SectionBlock where
  aid : String
  en : String
  vi : String
  pagination : Pagination
deriving Repr, DecidableEq

structure ValidationIssue where
  level : String
  code : String
  message : String
deriving Repr, DecidableEq

/-- An annotation entry `{"notes": [...], "translation_notes": [...]}`,
modelled as the insertion-ordered dict it is in Python (an entry may lack
either key, or be the empty dict `{}`). -/
abbrev AnnEntry : Type := List (String × List String)

/-- The `aid_index` routing dict.  Keys of `page_to_section` are the decimal
renderings of page numbers; they are modelled by the numbers themselves. -/
structure AidIndex where
  section_to_pages : List (String × List Nat)
  page_to_section : List (Nat × String)
deriving Repr, DecidableEq

structure Bundle where
  doc_id : String
  title : String
  pages : List PageImage
  sections : List Section
  annotations : Option (List (String × AnnEntry))
  aid_index : Option AidIndex
  section_blocks : Option (List SectionBlock)
  -- No edit record is ever constructed by the builder (the log starts
  -- empty), so the element type of the edit log is opaque here.
  edits : Option (List String)
deriving Repr, DecidableEq

/-- Result of `parse_en_translation_xml`.  The builder consumes it as given;
its fields are treated as arbitrary inputs here. -/
structure EnParseResult where
  en_by_page : List (Nat × String)
  doc_title : Option String
  notes_by_page : List (Nat × List String)
  trnotes_by_page : List (Nat × List String)
  section_en_by_sid : List (String × String)
  section_pages_observed : List (String × List Nat)
  section_titles : List (String × (String × String))
deriving Repr, DecidableEq

structure SectionMeta where
  sid : String
  title_vi : String
  title_en : String
  start_page : Nat
  end_page : Nat
deriving Repr, DecidableEq

/-! ## Dict helpers -/

/-- Python dict assignment `d[k] = v` on an insertion-ordered association
list: replace the value in place if the key exists, else append. -/
def dset {κ ν : Type} [DecidableEq κ] : List (κ × ν) → κ → ν → List (κ × ν)
  | [], k, v => [(k, v)]
  | (k0, v0) :: rest, k, v =>
    if k0 = k then (k0, v) :: rest else (k0, v0) :: dset rest k v

/-- Truthiness of an optional string (`if sid:`): present and non-empty. -/
def optStrTruthy : Option String → Bool
  | some s => s ≠ ""
  | none => false

/-- Truthiness of an optional list (`if sections_meta:`). -/
def optListTruthy {α : Type} : Option (List α) → Bool
  | some l => ¬ l.isEmpty
  | none => false

/-- Ascending duplicate-free insertion used to model `sorted(set(...))`. -/
def insSorted (x : Nat) : List Nat → List Nat
  | [] => [x]
  | y :: ys =>
    if x < y then x :: y :: ys
    else if x = y then y :: ys
    else y :: insSorted x ys

/-- `sorted(set(l))`: ascending list of the distinct elements of `l`. -/
def sortDedup (l : List Nat) : List Nat := l.foldr insSorted []

/-! ## Section↔page index construction -/

/-- `range(start_page, end_page + 1)` (empty when the range is inverted). -/
def rangeIncl (a b : Nat) : List Nat := (List.range (b + 1 - a)).map (a + ·)

/-- `_build_aid_index_from_meta`. -/
def buildAidIndexFromMeta (metas : List SectionMeta) :
    List (String × List Nat) × List (Nat × String) :=
  metas.foldl (fun acc m =>
    let rng := rangeIncl m.start_page m.end_page
    (dset acc.1 m.sid rng, rng.foldl (fun d p => dset d p m.sid) acc.2))
    ([], [])

/-- First-seen-order deduplication of an observed page sequence. -/
def dedupFirstSeen (pages : List Nat) : List Nat :=
  pages.foldl (fun acc p => if p ∈ acc then acc else acc ++ [p]) []

/-- `_build_aid_index_from_en_observed` (the `s_titles` parameter is unused
in the source as well). -/
def buildAidIndexFromObserved (s_titles : List (String × (String × String)))
    (s_pages : List (String × List Nat)) :
    List (String × List Nat) × List (Nat × String) :=
  s_pages.foldl (fun acc pr =>
    let uniq := dedupFirstSeen pr.2
    if uniq.isEmpty then acc
    else (dset acc.1 pr.1 uniq, uniq.foldl (fun d p => dset d p pr.1) acc.2))
    ([], [])

/-- The section↔page index and title lookup chosen by `build_bundle`:
external metadata when supplied and non-empty, else the translation
segmenter's observations. -/
structure SectionIndexOut where
  s2p : List (String × List Nat)
  p2s : List (Nat × String)
  titles : List (String × (String × String))
deriving Repr, DecidableEq

def sectionIndex (pr : EnParseResult) (meta : Option (List SectionMeta)) :
    SectionIndexOut :=
  if optListTruthy meta then
    let metas := meta.getD []
    let idx := buildAidIndexFromMeta metas
    ⟨idx.1, idx.2, metas.foldl (fun d m => dset d m.sid (m.title_vi, m.title_en)) []⟩
  else
    let idx := buildAidIndexFromObserved pr.section_titles pr.section_pages_observed
    ⟨idx.1, idx.2, pr.section_titles⟩

/-! ## Title computation (`_compute_title`) -/

/-- Python `str.title()` on ASCII letters: a letter is uppercased when the
previous character is not a letter, lowercased otherwise. -/
def pyTitleCase : Bool → List Char → List Char
  | _, [] => []
  | prevAlpha, c :: rest =>
    (if c.isAlpha then (if prevAlpha then c.toLower else c.toUpper) else c)
      :: pyTitleCase c.isAlpha rest

/-- `doc_id.replace("-", " ").title()`. -/
def titleFromDocId (doc_id : String) : String :=
  String.mk (pyTitleCase false (doc_id.data.map (fun c => if c = '-' then ' ' else c)))

/-- `fallback_title or parse_res.doc_title or doc_id.replace("-", " ").title()`
with Python string truthiness. -/
def computeTitle (doc_id : String) (pr : EnParseResult)
    (fallback_title : Option String) : String :=
  if optStrTruthy fallback_title then fallback_title.getD ""
  else if optStrTruthy pr.doc_title then pr.doc_title.getD ""
  else titleFromDocId doc_id

/-! ## Span, Section, SectionBlock construction -/

/-- The page AID `p:{doc_id}:{page}`. -/
def pAid (doc_id : String) (pg : Nat) : String :=
  "p:" ++ doc_id ++ ":" ++ toString pg

/-- The authoritative page set of `build_bundle`: pages of the source text
union pages of the translation text, falling back to the image-derived pages
when both are empty, sorted ascending. -/
def orderedPages (names : List String) (vi_by_page : List (Nat × String))
    (pr : EnParseResult) : List Nat :=
  let pageSet := vi_by_page.map Prod.fst ++ pr.en_by_page.map Prod.fst
  let pageSet :=
    if pageSet.isEmpty && ¬ (pagesFromImages names).isEmpty then
      (pagesFromImages names).map PageImage.page
    else pageSet
  sortDedup pageSet

/-- The Span `build_bundle` constructs for one page of the authoritative
page set. -/
def spanFor (doc_id : String) (vi_by_page : List (Nat × String))
    (pr : EnParseResult) (p2s : List (Nat × String)) (pg : Nat) : Span :=
  let en := (pr.en_by_page.lookup pg).getD ""
  let vi := (vi_by_page.lookup pg).getD ""
  let sid := p2s.lookup pg
  let align :=
    if en = "" ∧ optStrTruthy sid then
      some (SpanAlign.mk "pending" none (some "section"))
    else none
  ⟨pAid doc_id pg, pg, vi, en, align⟩

/-- The sort key of `_make_sections`: the first page of the section's
assigned page list, `none` (infinity) when the list is absent or empty. -/
def sectionKey (s2p : List (String × List Nat)) (sid : String) : Option Nat :=
  match s2p.lookup sid with
  | some (p :: _) => some p
  | some [] => none
  | none => none

/-- Strict order on sort keys with `none` as infinity. -/
def keyLt : Option Nat → Option Nat → Bool
  | some a, some b => a < b
  | some _, none => true
  | none, _ => false

/-- The sorted section-id order of `_make_sections`. -/
def sortedSids (titles : List (String × (String × String)))
    (s2p : List (String × List Nat)) : List String :=
  sortByLt (fun a b => keyLt (sectionKey s2p a) (sectionKey s2p b))
    (titles.map Prod.fst)

/-- `_make_sections`. -/
def makeSections (spans_by_page : List (Nat × Span))
    (titles : List (String × (String × String)))
    (s2p : List (String × List Nat)) : List Section :=
  (sortedSids titles s2p).map (fun sid =>
    let t := (titles.lookup sid).getD ("", "")
    let pg_list := (s2p.lookup sid).getD []
    ⟨sid, t.1, t.2, pg_list.filterMap (fun p => spans_by_page.lookup p)⟩)

/-- `_make_section_blocks`. -/
def makeSectionBlocks (section_order : List String)
    (s2p : List (String × List Nat)) (pr : EnParseResult) : List SectionBlock :=
  section_order.map (fun sid =>
    let en := (pr.section_en_by_sid.lookup sid).getD ""
    let target_pages := (s2p.lookup sid).getD []
    let all_have_en :=
      if target_pages.isEmpty then false
      else target_pages.all (fun p => !(pstrip ((pr.en_by_page.lookup p).getD "") == ""))
    let status :=
      if !target_pages.isEmpty && all_have_en then "exact"
      else if !target_pages.isEmpty then "incomplete"
      else "pending"
    ⟨sid, en, "", ⟨target_pages, status, [], none⟩⟩)

/-! ## Annotations sidecar (`_attach_annotations`, `_make_annotations`) -/

def entryGet (e : AnnEntry) (k : String) : List String := (List.lookup k e).getD []

/-- `_attach_annotations`: skip when both inputs are falsy, else extend the
`notes` / `translation_notes` lists of the entry for `aid` (creating the
entry, and the inner keys, on demand). -/
def attachAnn (d : List (String × AnnEntry)) (aid : String)
    (notes trnotes : Option (List String)) : List (String × AnnEntry) :=
  if ¬ optListTruthy notes && ¬ optListTruthy trnotes then d
  else
    let dest : AnnEntry := (d.lookup aid).getD []
    let dest : AnnEntry :=
      if optListTruthy notes then
        dset dest "notes" (entryGet dest "notes" ++ notes.getD [])
      else dest
    let dest : AnnEntry :=
      if optListTruthy trnotes then
        dset dest "translation_notes" (entryGet dest "translation_notes" ++ trnotes.getD [])
      else dest
    dset d aid dest

/-- `_make_annotations`: page-scoped notes keyed by page AID, then an empty
entry for every section id; `None` when everything is empty. -/
def makeAnnotations (doc_id : String) (section_order : List String)
    (pr : EnParseResult) : Option (List (String × AnnEntry)) :=
  let a := pr.notes_by_page.foldl
    (fun d pr1 => attachAnn d (pAid doc_id pr1.1) (some pr1.2) none) []
  let a := pr.trnotes_by_page.foldl
    (fun d pr1 => attachAnn d (pAid doc_id pr1.1) none (some pr1.2)) a
  let a := section_order.foldl
    (fun d sid => if (d.lookup sid).isSome then d else d ++ [(sid, [])]) a
  if a.isEmpty then none else some a

/-- `_make_aid_index`: `None` when `section_to_pages` is empty. -/
def makeAidIndex (s2p : List (String × List Nat)) (p2s : List (Nat × String)) :
    Option AidIndex :=
  if s2p.isEmpty then none else some ⟨s2p, p2s⟩

/-! ## `build_bundle` -/

def build_bundle (doc_id : String) (names : List String)
    (vi_by_page : List (Nat × String)) (pr : EnParseResult)
    (meta : Option (List SectionMeta)) (fallback_title : Option String) :
    Bundle :=
  let pages := pagesFromImages names
  let idx := sectionIndex pr meta
  let ops := orderedPages names vi_by_page pr
  let title := computeTitle doc_id pr fallback_title
  let spans_by_page := ops.map (fun pg => (pg, spanFor doc_id vi_by_page pr idx.p2s pg))
  let sections := makeSections spans_by_page idx.titles idx.s2p
  let section_order := idx.titles.map Prod.fst
  let blocks := makeSectionBlocks section_order idx.s2p pr
  { doc_id := doc_id
    title := title
    pages := pages
    sections := sections
    annotations := makeAnnotations doc_id section_order pr
    aid_index := makeAidIndex idx.s2p idx.p2s
    section_blocks := if blocks.isEmpty then none else some blocks
    edits := some [] }

/-! ## Validation (`validate_bundle`) -/

def allSpans (b : Bundle) : List Span := b.sections.flatMap (fun s => s.spans)

/-- `_check_unique_aids`: one ERROR per span whose page AID was already
seen. -/
def checkUniqueAids (b : Bundle) : List ValidationIssue :=
  ((allSpans b).foldl (fun acc sp =>
    (sp.aid :: acc.1,
      acc.2 ++ (if sp.aid ∈ acc.1 then
        [⟨"ERROR", "DUP_AID", "Duplicate aid: " ++ sp.aid⟩] else [])))
    (([] : List String), ([] : List ValidationIssue))).2

/-- `_build_image_index`: page number → image names, from digit extraction
(stem first, then, when that is falsy, the full name). -/
def imgIndex (names : List String) : List (Nat × List String) :=
  (iterUnannotatedImages names).foldl (fun idx nm =>
    let num :=
      match extractDigits (stemOf nm) with
      | some n => if n ≠ 0 then some n else extractDigits nm
      | none => extractDigits nm
    match num with
    | some n => bpush idx n nm
    | none => idx) []

/-- The referenced pages for which `_check_images` raises MISSING_IMAGE. -/
def missingImagePages (b : Bundle) (names : List String) : List Nat :=
  (sortDedup ((allSpans b).map Span.page)).filter
    (fun n => ((imgIndex names).lookup n).isNone)

def checkImages (b : Bundle) (names : List String) : List ValidationIssue :=
  (missingImagePages b names).map (fun n =>
    ⟨"WARN", "MISSING_IMAGE", "No image found for page " ++ toString n⟩)

/-- `_check_texts_and_alignment`. -/
def checkTexts (b : Bundle) : List ValidationIssue :=
  (allSpans b).flatMap (fun sp =>
    (if pstrip sp.vi = "" then
      [⟨"WARN", "EMPTY_VI", sp.aid ++ " has empty Vietnamese text"⟩] else []) ++
    (if pstrip sp.en = "" then
      [⟨"WARN", "EMPTY_EN", sp.aid ++ " has empty English text"⟩] else []) ++
    (match sp.align with
     | some al =>
       if al.status = "pending" then
         [⟨"INFO", "EN_PENDING_FROM_SECTION", sp.aid ++ " EN pending; source=section"⟩]
       else []
     | none => []))

def listMin : List Nat → Nat
  | [] => 0
  | x :: xs => xs.foldl Nat.min x

def listMax : List Nat → Nat
  | [] => 0
  | x :: xs => xs.foldl Nat.max x

/-- `_check_section_blocks`. -/
def checkSectionBlocks (b : Bundle) : List ValidationIssue :=
  match b.section_blocks with
  | none => []
  | some sbs =>
    if sbs.isEmpty then []
    else sbs.flatMap (fun sb =>
      let tgt := sb.pagination.target_pages
      (if sb.pagination.status = "incomplete" && ¬ tgt.isEmpty then
        [⟨"WARN", "MISSING_PAGEBREAKS",
          "Section " ++ sb.aid ++ " missing EN pagebreaks across pages "
            ++ toString (listMin tgt) ++ "-" ++ toString (listMax tgt)⟩]
       else []) ++
      (if sb.pagination.status = "pending" then
        [⟨"INFO", "SECTION_PAGINATION_PENDING",
          "Section " ++ sb.aid ++ " has no target pages"⟩]
       else []))

def validate_bundle (b : Bundle) (names : List String) : List ValidationIssue :=
  checkUniqueAids b ++ checkImages b names ++ checkTexts b ++ checkSectionBlocks b

/-! ## Serialization (`bundle_to_dict`)

A minimal JSON value type distinguishes an absent key from a key serialized
as `null`. -/

inductive JValue where
  | null
  | str (s : String)
  | num (n : Nat)
  | arr (xs : List JValue)
  | obj (fields : List (String × JValue))

def optStrJ : Option String → JValue
  | some s => .str s
  | none => .null

/-- `_span_to_dict` (via `asdict`, field order of the dataclass; an absent
`align` serializes as `null`). -/
def spanToJ (sp : Span) : JValue :=
  .obj [("aid", .str sp.aid), ("page", .num sp.page), ("vi", .str sp.vi),
    ("en", .str sp.en),
    ("align", match sp.align with
      | none => .null
      | some al => .obj [("status", .str al.status), ("method", optStrJ al.method),
          ("source", optStrJ al.source)])]

def sectionToJ (sec : Section) : JValue :=
  .obj [("sid", .str sec.sid), ("title_vi", .str sec.title_vi),
    ("title_en", .str sec.title_en), ("spans", .arr (sec.spans.map spanToJ))]

def pageToJ (pi : PageImage) : JValue :=
  .obj [("page", .num pi.page), ("image", .str pi.image)]

def annEntryToJ (e : AnnEntry) : JValue :=
  .obj (e.map (fun kv => (kv.1, .arr (kv.2.map JValue.str))))

def aidIndexToJ (idx : AidIndex) : JValue :=
  .obj [("section_to_pages",
      .obj (idx.section_to_pages.map (fun kv => (kv.1, .arr (kv.2.map JValue.num))))),
    ("page_to_section",
      .obj (idx.page_to_section.map (fun kv => (toString kv.1, JValue.str kv.2))))]

def blockToJ (sb : SectionBlock) : JValue :=
  .obj [("aid", .str sb.aid), ("en", .str sb.en), ("vi", .str sb.vi),
    ("pagination", .obj [("target_pages", .arr (sb.pagination.target_pages.map JValue.num)),
      ("status", .str sb.pagination.status),
      ("breaks", .arr (sb.pagination.breaks.map JValue.num)),
      ("method", optStrJ sb.pagination.method)])]

/-- `bundle_to_dict`: the serialized record.  The four optional fields are
always present as keys; an empty `annotations` / `aid_index` is the Python
value `None`, and `section_blocks` / `edits` go through `... or None`, so an
empty value serializes as `null`. -/
def bundle_to_dict (b : Bundle) : List (String × JValue) :=
  [("doc_id", .str b.doc_id),
   ("title", .str b.title),
   ("pages", .arr (b.pages.map pageToJ)),
   ("sections", .arr (b.sections.map sectionToJ)),
   ("annotations", match b.annotations with
     | none => .null
     | some a => .obj (a.map (fun kv => (kv.1, annEntryToJ kv.2)))),
   ("aid_index", match b.aid_index with
     | none => .null
     | some idx => aidIndexToJ idx),
   ("section_blocks", match b.section_blocks with
     | none => .null
     | some [] => .null
     | some (sb :: sbs) => .arr ((sb :: sbs).map blockToJ)),
   ("edits", match b.edits with
     | none => .null
     | some [] => .null
     | some (e :: es) => .arr ((e :: es).map JValue.str))]

/-! ## General lemmas -/

theorem foldl_inv {α σ : Type} (P : σ → Prop) (f : σ → α → σ)
    (hf : ∀ s a, P s → P (f s a)) : ∀ (l : List α) (s : σ), P s → P (l.foldl f s)
  | [], _, hs => hs
  | a :: l, s, hs => foldl_inv P f hf l (f s a) (hf s a hs)

theorem nextFreeAux_ge (fuel : Nat) : ∀ (used : List Nat) (k : Nat),
    k ≤ nextFreeAux fuel used k := by
  induction fuel with
  | zero => intro used k; exact Nat.le_refl k
  | succ n ih =>
    intro used k
    unfold nextFreeAux
    split
    · exact Nat.le_trans (Nat.le_succ k) (ih used (k + 1))
    · exact Nat.le_refl k

theorem nextFree_ge (used : List Nat) (k : Nat) : k ≤ nextFree used k :=
  nextFreeAux_ge _ _ _

/-! ## Claim C9 -/

/-- Claim C9: every page entry produced by image enumeration has a page
number at least 1.  A filename whose first digit run parses to 0 is rejected
by the falsy `or` chain exactly like a digitless one and receives the next
unused fallback integer, which starts at 1 and only grows. -/
theorem c9_pages_positive (names : List String) (e : PageImage)
    (he : e ∈ pagesFromImages names) : 1 ≤ e.page := by
  have key : ∀ (l : List String) (acc : PagesAcc),
      (1 ≤ acc.fallback ∧ ∀ x ∈ acc.pages, 1 ≤ x.page) →
      (1 ≤ (l.foldl pagesStep acc).fallback ∧
        ∀ x ∈ (l.foldl pagesStep acc).pages, 1 ≤ x.page) := by
    intro l
    refine fun acc h => foldl_inv
      (fun s => 1 ≤ s.fallback ∧ ∀ x ∈ s.pages, 1 ≤ x.page) pagesStep ?_ l acc h
    intro s nm hs
    obtain ⟨hf1, hp1⟩ := hs
    simp only [pagesStep]
    split
    · constructor
      · show 1 ≤ nextFree s.used s.fallback + 1
        omega
      · intro x hx
        have hx' : x ∈ s.pages ++
            [PageImage.mk (nextFree s.used s.fallback) ("/images/" ++ nm)] := hx
        rcases List.mem_append.mp hx' with hm | hm
        · exact hp1 x hm
        · have hg := nextFree_ge s.used s.fallback
          have hx1 : x = PageImage.mk (nextFree s.used s.fallback) ("/images/" ++ nm) := by
            simpa using hm
          subst hx1
          show 1 ≤ nextFree s.used s.fallback
          omega
    · rename_i h0
      constructor
      · exact hf1
      · intro x hx
        have hx' : x ∈ s.pages ++
            [PageImage.mk (orFalsy (extractDigits (stemOf nm)) (extractDigits nm))
              ("/images/" ++ nm)] := hx
        rcases List.mem_append.mp hx' with hm | hm
        · exact hp1 x hm
        · have hx1 : x = PageImage.mk
              (orFalsy (extractDigits (stemOf nm)) (extractDigits nm))
              ("/images/" ++ nm) := by simpa using hm
          subst hx1
          show 1 ≤ orFalsy (extractDigits (stemOf nm)) (extractDigits nm)
          omega
  exact (key (sortByLt (fun a b : String => lexLt a.data b.data) (iterUnannotatedImages names))
    ⟨[], 1, []⟩ ⟨Nat.le_refl 1, by intro x hx; simp at hx⟩).2 e he

/-- Witness for C9 at a filename whose digit run parses to 0: the produced
entry has the fallback page number 1, not page 0. -/
theorem c9_pages_positive_witness :
    (⟨1, "/images/unannotated_page_0.png"⟩ : PageImage)
        ∈ pagesFromImages ["unannotated_page_0.png"] ∧
      (1 : Nat) ≤ (PageImage.mk 1 "/images/unannotated_page_0.png").page :=
  ⟨by decide, c9_pages_positive ["unannotated_page_0.png"] _ (by decide)⟩

theorem lookup_mem {κ ν : Type} [BEq κ] [LawfulBEq κ] {l : List (κ × ν)} {k : κ}
    {v : ν} (h : l.lookup k = some v) : (k, v) ∈ l := by
  induction l with
  | nil => simp [List.lookup] at h
  | cons kv rest ih =>
    rw [List.lookup] at h
    rcases hbeq : k == kv.1 with _ | _
    · rw [hbeq] at h
      exact List.mem_cons_of_mem _ (ih h)
    · rw [hbeq] at h
      have hk : k = kv.1 := eq_of_beq hbeq
      have hv : v = kv.2 := by cases h; rfl
      rw [hk, hv]
      exact List.mem_cons_self _ _

/-! ## Claim C1 -/

theorem build_bundle_section_blocks (doc : String) (names : List String)
    (vi : List (Nat × String)) (pr : EnParseResult)
    (meta : Option (List SectionMeta)) (ft : Option String) :
    (build_bundle doc names vi pr meta ft).section_blocks.getD [] =
      makeSectionBlocks ((sectionIndex pr meta).titles.map Prod.fst)
        (sectionIndex pr meta).s2p pr := by
  unfold build_bundle
  dsimp only
  by_cases hb : (makeSectionBlocks ((sectionIndex pr meta).titles.map Prod.fst)
      (sectionIndex pr meta).s2p pr).isEmpty
  · rw [if_pos hb]
    simp [List.isEmpty_iff.mp hb]
  · rw [if_neg hb]
    rfl

/-- Claim C1: in every assembled bundle, a SectionBlock's pagination status
is "exact" iff its target-page list is non-empty and every page of the list
has non-blank page-level target text, "pending" iff the target-page list is
empty, and "incomplete" in exactly the remaining case. -/
theorem c1_section_block_status (doc : String) (names : List String)
    (vi : List (Nat × String)) (pr : EnParseResult)
    (meta : Option (List SectionMeta)) (ft : Option String) (sb : SectionBlock)
    (hsb : sb ∈ (build_bundle doc names vi pr meta ft).section_blocks.getD []) :
    (sb.pagination.status = "exact" ↔ sb.pagination.target_pages ≠ [] ∧
        ∀ p ∈ sb.pagination.target_pages, pstrip ((pr.en_by_page.lookup p).getD "") ≠ "") ∧
    (sb.pagination.status = "pending" ↔ sb.pagination.target_pages = []) ∧
    (sb.pagination.status = "incomplete" ↔ sb.pagination.target_pages ≠ [] ∧
        ¬ ∀ p ∈ sb.pagination.target_pages, pstrip ((pr.en_by_page.lookup p).getD "") ≠ "") := by
  rw [build_bundle_section_blocks] at hsb
  unfold makeSectionBlocks at hsb
  obtain ⟨sid, hmem, rfl⟩ := List.mem_map.mp hsb
  dsimp only
  rcases htp : ((sectionIndex pr meta).s2p.lookup sid).getD [] with _ | ⟨q, qs⟩
  · simp
  · by_cases hall : (q :: qs).all
        (fun p => !(pstrip ((pr.en_by_page.lookup p).getD "") == ""))
    · have hall' : ∀ p ∈ q :: qs, pstrip ((pr.en_by_page.lookup p).getD "") ≠ "" := by
        simpa [List.all_eq_true] using hall
      simp [hall, hall']
      exact fun a ha => hall' a (List.mem_cons_of_mem _ ha)
    · have hallf := Bool.not_eq_true _ ▸ hall
      have hall' : ¬ ∀ p ∈ q :: qs, pstrip ((pr.en_by_page.lookup p).getD "") ≠ "" := by
        intro hc
        exact hall (by simpa [List.all_eq_true] using hc)
      simp [hallf, hall']
      intro hq
      push_neg at hall'
      obtain ⟨p, hp, hpe⟩ := hall'
      rcases List.mem_cons.mp hp with rfl | hp'
      · exact absurd hpe hq
      · exact ⟨p, hp', hpe⟩

/-- Concrete parse result used by several witnesses: one section `"s"`
observed on page 1, with page-level target text on page 1. -/
def prW : EnParseResult :=
  ⟨[(1, "hi")], none, [], [], [("s", "full text")], [("s", [1])], [("s", ("", ""))]⟩

/-- The SectionBlock the builder produces from `prW` for section `"s"`. -/
def sbW : SectionBlock := ⟨"s", "full text", "", ⟨[1], "exact", [], none⟩⟩

/-- Witness for C1: for the bundle built from `prW`, the block of section
`"s"` has target pages `[1]` and status "exact", and the three equivalences
hold at it. -/
theorem c1_section_block_status_witness :
    (sbW ∈ (build_bundle "d" [] [] prW none none).section_blocks.getD []) ∧
    ((sbW.pagination.status = "exact" ↔ sbW.pagination.target_pages ≠ [] ∧
        ∀ p ∈ sbW.pagination.target_pages,
          pstrip ((prW.en_by_page.lookup p).getD "") ≠ "") ∧
      (sbW.pagination.status = "pending" ↔ sbW.pagination.target_pages = []) ∧
      (sbW.pagination.status = "incomplete" ↔ sbW.pagination.target_pages ≠ [] ∧
        ¬ ∀ p ∈ sbW.pagination.target_pages,
          pstrip ((prW.en_by_page.lookup p).getD "") ≠ "")) :=
  ⟨by decide, c1_section_block_status "d" [] [] prW none none sbW (by decide)⟩

/-! ## Claim C2 -/

/-- Claim C2: the Span constructed for a page of the authoritative page set
carries the alignment descriptor `{status: pending, source: "section"}` iff
its target text is empty and the section↔page index maps the page to a known
section; otherwise it carries no descriptor.  (The hypothesis `hvals` states
that the index stores actual section AIDs — non-empty strings — which is
true of both index builders; the source tests the mapped value for
truthiness.) -/
theorem c2_span_align (doc : String) (names : List String)
    (vi : List (Nat × String)) (pr : EnParseResult)
    (meta : Option (List SectionMeta)) (pg : Nat)
    (hpg : pg ∈ orderedPages names vi pr)
    (hvals : ∀ kv ∈ (sectionIndex pr meta).p2s, kv.2 ≠ "") :
    ((spanFor doc vi pr (sectionIndex pr meta).p2s pg).align
        = some (SpanAlign.mk "pending" none (some "section"))
      ↔ (pr.en_by_page.lookup pg).getD "" = ""
          ∧ ((sectionIndex pr meta).p2s.lookup pg).isSome) ∧
    ((spanFor doc vi pr (sectionIndex pr meta).p2s pg).align = none
      ↔ ¬ ((pr.en_by_page.lookup pg).getD "" = ""
          ∧ ((sectionIndex pr meta).p2s.lookup pg).isSome)) := by
  have htruthy : optStrTruthy ((sectionIndex pr meta).p2s.lookup pg)
      = ((sectionIndex pr meta).p2s.lookup pg).isSome := by
    cases hl : (sectionIndex pr meta).p2s.lookup pg with
    | none => rfl
    | some s =>
      have hs : s ≠ "" := hvals (pg, s) (lookup_mem hl)
      simp [optStrTruthy, hs]
  unfold spanFor
  dsimp only
  rw [htruthy]
  by_cases hen : (pr.en_by_page.lookup pg).getD "" = ""
  · cases hl : ((sectionIndex pr meta).p2s.lookup pg).isSome
    · simp [hen, hl]
    · simp [hen, hl]
  · simp [hen]

/-- Witness for C2: in the bundle built from `prW` without metadata, page 1
sits in section `"s"` but has target text, so it carries no descriptor; both
equivalences hold, and the index values are non-empty section AIDs. -/
theorem c2_span_align_witness :
    ((1 : Nat) ∈ orderedPages [] [] prW) ∧
    (∀ kv ∈ (sectionIndex prW none).p2s, kv.2 ≠ "") ∧
    (((spanFor "d" [] prW (sectionIndex prW none).p2s 1).align
        = some (SpanAlign.mk "pending" none (some "section"))
      ↔ (prW.en_by_page.lookup 1).getD "" = ""
          ∧ ((sectionIndex prW none).p2s.lookup 1).isSome) ∧
    ((spanFor "d" [] prW (sectionIndex prW none).p2s 1).align = none
      ↔ ¬ ((prW.en_by_page.lookup 1).getD "" = ""
          ∧ ((sectionIndex prW none).p2s.lookup 1).isSome))) :=
  ⟨by decide, by decide, c2_span_align "d" [] [] prW none 1 (by decide) (by decide)⟩

/-! ## Claim C5 -/

/-- Claim C5: when the source-transcript segmenter encounters a page-break
marker, the cursor is set to the integer parsed from the first digit run of
the marker's `page` attribute — whatever its value, including one lower than
the current cursor — and is left unchanged when the attribute has no digits;
the buckets are untouched.  Stated over the segmenter's fold for a marker
appearing after an arbitrary traversal prefix. -/
theorem c5_pagebreak_cursor (l : List (Bool × XML)) (st : ViState) (b : Bool)
    (attrs : List (String × String)) (text tail : String) :
    viFold (l ++ [(b, XML.elem "pagebreak" attrs text [] tail)]) st =
      { viFold l st with
        page := (extractDigits ((attrs.lookup "page").getD "")).getD (viFold l st).page } := by
  have h1 : viFold (l ++ [(b, XML.elem "pagebreak" attrs text [] tail)]) st
      = viStep (viFold l st) b (XML.elem "pagebreak" attrs text [] tail) := by
    unfold viFold
    rw [List.foldl_append]
    rfl
  rw [h1]
  unfold viStep
  have htag : (XML.elem "pagebreak" attrs text [] tail).tagLower = "pagebreak" := rfl
  rw [htag]
  simp only [if_pos rfl, XML.attrGet, XML.attrs]
  cases hd : extractDigits ((attrs.lookup "page").getD "") with
  | none => rfl
  | some n => rfl


/-! ## Concrete example inputs for the counterexamples -/

/-- An `EnParseResult` with every field empty. -/
def emptyPr : EnParseResult := ⟨[], none, [], [], [], [], []⟩

/-- Metadata with overlapping page ranges: sections `x` (pages 1–2) and `y`
(pages 2–3) both claim page 2. -/
def metasOverlap : List SectionMeta :=
  [⟨"s:d:x", "", "", 1, 2⟩, ⟨"s:d:y", "", "", 2, 3⟩]

/-- A parse result whose first section was observed on pages [7, 3] (an
out-of-order page-break) and whose second was observed on page [5]. -/
def prOutOfOrder : EnParseResult :=
  ⟨[], none, [], [], [], [("A", [7, 3]), ("B", [5])], [("A", ("", "")), ("B", ("", ""))]⟩

/-- Two image files for pages 1 and 2. -/
def namesTwoImages : List String :=
  ["unannotated_page_1.png", "unannotated_page_2.png"]

/-- Metadata assigning one section the pages 1–2. -/
def metaOneSection : List SectionMeta := [⟨"s:d:x", "", "", 1, 2⟩]

/-- A transcript tree with a nested text-bearing element and a non-blank
tail: `<doc><a><b>hi</b> T </a></doc>`. -/
def nestedTree : XML :=
  .elem "doc" [] "" [.elem "a" [] "" [.elem "b" [] "hi" [] " T "] ""] ""

/-! ## Claim C3 — counterexample -/

/-- Counterexample to claim C3 as stated: in the bundle assembled from
metadata with overlapping page ranges, the page-2 Span occurs in two
sections, so the page AIDs across all sections are not duplicate-free. -/
theorem c3_counterexample :
    ¬ ((allSpans (build_bundle "d" [] [(1, "a"), (2, "b"), (3, "c")] emptyPr
        (some metasOverlap) none)).map Span.aid).Nodup := by decide

/-! ## Claim C4 — counterexample -/

/-- Counterexample to claim C4 as stated: for a transcript with a nested
text-bearing element and a non-blank tail, the chunks stored in the page
buckets are not a permutation of the non-blank chunks reachable from the
tree — the nested text is attributed twice (once inside its parent's
flattened text) and the tail is dropped. -/
theorem c4_counterexample :
    ¬ (allChunks (viBuckets nestedTree)).Perm (reachableChunks nestedTree) := by
  decide

/-! ## Claim C6 — counterexample -/

/-- Counterexample to claim C6 as stated: page 2 is present among the
discovered images and absent from both text mappings, yet — because the
source text mapping is non-empty — the authoritative page set is `[1]`, no
Span is created for page 2, and the only EMPTY_EN warning concerns page 1. -/
theorem c6_counterexample :
    ((2 : Nat) ∈ (pagesFromImages namesTwoImages).map PageImage.page) ∧
    ((1, "x") ∈ [((1 : Nat), "x")] ∧ (∀ kv ∈ [((1 : Nat), "x")], kv.1 ≠ 2)
      ∧ emptyPr.en_by_page = []) ∧
    orderedPages namesTwoImages [(1, "x")] emptyPr = [1] ∧
    (allSpans (build_bundle "d" namesTwoImages [(1, "x")] emptyPr
        (some metaOneSection) none)).map Span.page = [1] ∧
    ((validate_bundle (build_bundle "d" namesTwoImages [(1, "x")] emptyPr
          (some metaOneSection) none) namesTwoImages).filter
        (fun i => i.code == "EMPTY_EN" || i.code == "EMPTY_VI")).map
      ValidationIssue.message = ["p:d:1 has empty English text"] := by
  refine ⟨by decide, ⟨by decide, by decide, by decide⟩, by decide, by decide, by decide⟩

/-! ## Claim C7 — counterexample -/

/-- The minimum page of a section's assigned range, read off the assembled
bundle's index (the spec's claimed sort key); `none` when no pages are
known. -/
def minAssignedPage (b : Bundle) (sid : String) : Option Nat :=
  match b.aid_index with
  | some idx =>
    match idx.section_to_pages.lookup sid with
    | some (p :: ps) => some (listMin (p :: ps))
    | _ => none
  | none => none

/-- Weak order on sort keys with `none` (no known pages) sorted last. -/
def keyLe : Option Nat → Option Nat → Bool
  | some a, some b => a ≤ b
  | some _, none => true
  | none, some _ => false
  | none, none => true

/-- Counterexample to claim C7 as stated: in the bundle built from
`prOutOfOrder`, the sections list is ["B", "A"] with minimum assigned pages
[5, 3] — not ordered by minimum page number. -/
theorem c7_counterexample :
    ¬ List.Pairwise
      (fun s1 s2 =>
        keyLe (minAssignedPage (build_bundle "d" [] [] prOutOfOrder none none) s1.sid)
          (minAssignedPage (build_bundle "d" [] [] prOutOfOrder none none) s2.sid) = true)
      (build_bundle "d" [] [] prOutOfOrder none none).sections := by
  decide

/-! ## Claim C8 — counterexample -/

/-- Counterexample to claim C8 as stated: in the serialized record of a
bundle with no annotations, no index, no blocks and an empty edit log, all
four optional fields are present — with the placeholder value `null` — not
omitted. -/
theorem c8_counterexample :
    (build_bundle "d" [] [] emptyPr none none).annotations = none ∧
    (build_bundle "d" [] [] emptyPr none none).aid_index = none ∧
    (build_bundle "d" [] [] emptyPr none none).section_blocks = none ∧
    (build_bundle "d" [] [] emptyPr none none).edits = some [] ∧
    (bundle_to_dict (build_bundle "d" [] [] emptyPr none none)).lookup "annotations"
      = some JValue.null ∧
    (bundle_to_dict (build_bundle "d" [] [] emptyPr none none)).lookup "aid_index"
      = some JValue.null ∧
    (bundle_to_dict (build_bundle "d" [] [] emptyPr none none)).lookup "section_blocks"
      = some JValue.null ∧
    (bundle_to_dict (build_bundle "d" [] [] emptyPr none none)).lookup "edits"
      = some JValue.null :=
  ⟨rfl, rfl, rfl, rfl, rfl, rfl, rfl, rfl⟩

/-! ## Claim C10 — counterexample -/

/-- Counterexample to claim C10 as stated: `_norm` is not idempotent.  On
the already-normalized string `norm "a\n\n \n\nb" = "a\n\n\n\nb"` (the
whitespace-only line was blanked, creating a four-newline run the collapse
pass never saw), a second application still collapses the run. -/
theorem c10_counterexample : norm (norm "a

 

b") ≠ norm "a

 

b" := by
  decide

/-! ## Claim C7 — amended theorem

The builder sorts sections by the FIRST page of the assigned page list (for
metadata-derived ranges this coincides with the minimum), sections with no
known pages last.  We prove the sections list is sorted by that key. -/

theorem insLt_mem {α : Type} (lt : α → α → Bool) (x b : α) (l : List α)
    (hb : b ∈ insLt lt x l) : b = x ∨ b ∈ l := by
  induction l with
  | nil => simpa [insLt] using hb
  | cons y ys ih =>
    rw [insLt] at hb
    split at hb
    · rcases List.mem_cons.mp hb with h | h
      · exact Or.inr (h ▸ List.mem_cons_self y ys)
      · rcases ih h with h' | h'
        · exact Or.inl h'
        · exact Or.inr (List.mem_cons_of_mem y h')
    · rcases List.mem_cons.mp hb with h | h
      · exact Or.inl h
      · exact Or.inr h

theorem insLt_pairwise {α : Type} (lt : α → α → Bool)
    (htrans : ∀ a b c, lt b a = false → lt c b = false → lt c a = false)
    (hasymm : ∀ a b, lt a b = true → lt b a = false) (x : α) (l : List α)
    (hl : List.Pairwise (fun a b => lt b a = false) l) :
    List.Pairwise (fun a b => lt b a = false) (insLt lt x l) := by
  induction l with
  | nil => simpa [insLt] using List.pairwise_singleton _ x
  | cons y ys ih =>
    rw [List.pairwise_cons] at hl
    rw [insLt]
    split
    · rename_i hyx
      refine List.pairwise_cons.mpr ⟨?_, ih hl.2⟩
      intro b hb
      rcases insLt_mem lt x b ys hb with rfl | hbm
      · exact hasymm y b hyx
      · exact hl.1 b hbm
    · rename_i hyx
      have hyxf : lt y x = false := Bool.not_eq_true _ ▸ hyx
      refine List.pairwise_cons.mpr ⟨?_, List.pairwise_cons.mpr hl⟩
      intro b hb
      rcases List.mem_cons.mp hb with rfl | hbm
      · exact hyxf
      · exact htrans x y b hyxf (hl.1 b hbm)

theorem sortByLt_pairwise {α : Type} (lt : α → α → Bool)
    (htrans : ∀ a b c, lt b a = false → lt c b = false → lt c a = false)
    (hasymm : ∀ a b, lt a b = true → lt b a = false) (l : List α) :
    List.Pairwise (fun a b => lt b a = false) (sortByLt lt l) := by
  induction l with
  | nil => exact List.Pairwise.nil
  | cons x xs ih => exact insLt_pairwise lt htrans hasymm x _ ih

theorem keyLt_le_trans (a b c : Option Nat) (h1 : keyLt b a = false)
    (h2 : keyLt c b = false) : keyLt c a = false := by
  cases a <;> cases b <;> cases c <;> simp [keyLt] at h1 h2 ⊢ <;> omega

theorem keyLt_asymm (a b : Option Nat) (h : keyLt a b = true) :
    keyLt b a = false := by
  cases a <;> cases b <;> simp [keyLt] at h ⊢ <;> omega

/-- Amended claim C7: in every assembled bundle, the sections list is ordered
by the first page number of each section's assigned page list (equal to the
minimum for metadata-derived ranges), with sections having no known pages
sorted last — i.e. no later section's key is strictly below an earlier
section's key. -/
theorem c7_sections_sorted_by_first_page (doc : String) (names : List String)
    (vi : List (Nat × String)) (pr : EnParseResult)
    (meta : Option (List SectionMeta)) (ft : Option String) :
    List.Pairwise
      (fun s1 s2 =>
        keyLt (sectionKey (sectionIndex pr meta).s2p s2.sid)
          (sectionKey (sectionIndex pr meta).s2p s1.sid) = false)
      (build_bundle doc names vi pr meta ft).sections := by
  have hb : (build_bundle doc names vi pr meta ft).sections =
      makeSections ((orderedPages names vi pr).map
          (fun pg => (pg, spanFor doc vi pr (sectionIndex pr meta).p2s pg)))
        (sectionIndex pr meta).titles (sectionIndex pr meta).s2p := rfl
  rw [hb]
  unfold makeSections
  rw [List.pairwise_map]
  have := sortByLt_pairwise
    (fun a b => keyLt (sectionKey (sectionIndex pr meta).s2p a)
      (sectionKey (sectionIndex pr meta).s2p b))
    (fun a b c h1 h2 => keyLt_le_trans _ _ _ h1 h2)
    (fun a b h => keyLt_asymm _ _ h)
    ((sectionIndex pr meta).titles.map Prod.fst)
  exact this

/-! ## Claim C8 — amended theorem -/

/-- Amended claim C8: the serialized bundle record always contains all eight
fields; an optional field whose value is empty is serialized as `null` (it is
not omitted), and `edits` — always the empty log at build time — is always
serialized as `null`.  Consumers must treat `null` as semantically empty. -/
theorem c8_optional_fields_null (doc : String) (names : List String)
    (vi : List (Nat × String)) (pr : EnParseResult)
    (meta : Option (List SectionMeta)) (ft : Option String) :
    ((bundle_to_dict (build_bundle doc names vi pr meta ft)).map Prod.fst
      = ["doc_id", "title", "pages", "sections", "annotations", "aid_index",
          "section_blocks", "edits"]) ∧
    ((build_bundle doc names vi pr meta ft).annotations = none →
      (bundle_to_dict (build_bundle doc names vi pr meta ft)).lookup "annotations"
        = some JValue.null) ∧
    ((build_bundle doc names vi pr meta ft).aid_index = none →
      (bundle_to_dict (build_bundle doc names vi pr meta ft)).lookup "aid_index"
        = some JValue.null) ∧
    ((build_bundle doc names vi pr meta ft).section_blocks = none →
      (bundle_to_dict (build_bundle doc names vi pr meta ft)).lookup "section_blocks"
        = some JValue.null) ∧
    ((bundle_to_dict (build_bundle doc names vi pr meta ft)).lookup "edits"
      = some JValue.null) := by
  refine ⟨rfl, ?_, ?_, ?_, ?_⟩
  · intro h
    have hv : (bundle_to_dict (build_bundle doc names vi pr meta ft)).lookup "annotations"
        = some (match (build_bundle doc names vi pr meta ft).annotations with
          | none => JValue.null
          | some a => JValue.obj (a.map (fun kv => (kv.1, annEntryToJ kv.2)))) := rfl
    rw [hv, h]
  · intro h
    have hv : (bundle_to_dict (build_bundle doc names vi pr meta ft)).lookup "aid_index"
        = some (match (build_bundle doc names vi pr meta ft).aid_index with
          | none => JValue.null
          | some idx => aidIndexToJ idx) := rfl
    rw [hv, h]
  · intro h
    have hv : (bundle_to_dict (build_bundle doc names vi pr meta ft)).lookup "section_blocks"
        = some (match (build_bundle doc names vi pr meta ft).section_blocks with
          | none => JValue.null
          | some [] => JValue.null
          | some (sb :: sbs) => JValue.arr ((sb :: sbs).map blockToJ)) := rfl
    rw [hv, h]
  · have he : (build_bundle doc names vi pr meta ft).edits = some [] := rfl
    have hv : (bundle_to_dict (build_bundle doc names vi pr meta ft)).lookup "edits"
        = some (match (build_bundle doc names vi pr meta ft).edits with
          | none => JValue.null
          | some [] => JValue.null
          | some (e :: es) => JValue.arr ((e :: es).map JValue.str)) := rfl
    rw [hv, he]

/-- Witness for the amended C8 at the empty build, where all three
conditional hypotheses hold. -/
theorem c8_optional_fields_null_witness :
    ((build_bundle "d" [] [] emptyPr none none).annotations = none ∧
      (build_bundle "d" [] [] emptyPr none none).aid_index = none ∧
      (build_bundle "d" [] [] emptyPr none none).section_blocks = none) ∧
    (((bundle_to_dict (build_bundle "d" [] [] emptyPr none none)).map Prod.fst
      = ["doc_id", "title", "pages", "sections", "annotations", "aid_index",
          "section_blocks", "edits"]) ∧
    ((build_bundle "d" [] [] emptyPr none none).annotations = none →
      (bundle_to_dict (build_bundle "d" [] [] emptyPr none none)).lookup "annotations"
        = some JValue.null) ∧
    ((build_bundle "d" [] [] emptyPr none none).aid_index = none →
      (bundle_to_dict (build_bundle "d" [] [] emptyPr none none)).lookup "aid_index"
        = some JValue.null) ∧
    ((build_bundle "d" [] [] emptyPr none none).section_blocks = none →
      (bundle_to_dict (build_bundle "d" [] [] emptyPr none none)).lookup "section_blocks"
        = some JValue.null) ∧
    ((bundle_to_dict (build_bundle "d" [] [] emptyPr none none)).lookup "edits"
      = some JValue.null)) :=
  ⟨⟨rfl, rfl, rfl⟩, c8_optional_fields_null "d" [] [] emptyPr none none⟩

/-! ## Claim C6 — amended theorem and supporting lemmas -/

theorem mem_insSorted (x a : Nat) (l : List Nat) :
    a ∈ insSorted x l ↔ a = x ∨ a ∈ l := by
  induction l with
  | nil => simp [insSorted]
  | cons y ys ih =>
    rw [insSorted]
    split
    · simp [List.mem_cons]
    · split
      · rename_i hlt heq
        subst heq
        simp [List.mem_cons]
      · simp only [List.mem_cons, ih]
        tauto

theorem mem_sortDedup (a : Nat) (l : List Nat) : a ∈ sortDedup l ↔ a ∈ l := by
  unfold sortDedup
  induction l with
  | nil => simp
  | cons x xs ih =>
    simp only [List.foldr_cons, mem_insSorted, ih, List.mem_cons]

theorem lookup_tabulate {β : Type} (f : Nat → β) (l : List Nat) (p : Nat) (v : β)
    (h : (l.map (fun q => (q, f q))).lookup p = some v) : v = f p ∧ p ∈ l := by
  induction l with
  | nil => simp [List.lookup] at h
  | cons q qs ih =>
    rw [List.map_cons, List.lookup] at h
    rcases hbeq : p == q with _ | _
    · rw [hbeq] at h
      obtain ⟨hv, hm⟩ := ih h
      exact ⟨hv, List.mem_cons_of_mem _ hm⟩
    · rw [hbeq] at h
      have hpq : p = q := eq_of_beq hbeq
      cases h
      exact ⟨by rw [hpq], hpq ▸ List.mem_cons_self _ _⟩

theorem keys_lookup_isSome {κ ν : Type} [BEq κ] [LawfulBEq κ] {l : List (κ × ν)}
    {k : κ} (h : k ∈ l.map Prod.fst) : (l.lookup k).isSome := by
  induction l with
  | nil => simp at h
  | cons kv rest ih =>
    rw [List.map_cons, List.mem_cons] at h
    rw [List.lookup]
    rcases hbeq : k == kv.1 with _ | _
    · rcases h with h1 | h1
      · exact absurd hbeq (by simp [h1])
      · exact ih h1
    · simp

/-- Every Span of an assembled bundle is the Span the builder constructed
for some page of the authoritative page set. -/
theorem allSpans_build_mem (doc : String) (names : List String)
    (vi : List (Nat × String)) (pr : EnParseResult)
    (meta : Option (List SectionMeta)) (ft : Option String) (sp : Span)
    (hsp : sp ∈ allSpans (build_bundle doc names vi pr meta ft)) :
    ∃ p ∈ orderedPages names vi pr,
      sp = spanFor doc vi pr (sectionIndex pr meta).p2s p := by
  have hb : allSpans (build_bundle doc names vi pr meta ft) =
      (makeSections ((orderedPages names vi pr).map
          (fun pg => (pg, spanFor doc vi pr (sectionIndex pr meta).p2s pg)))
        (sectionIndex pr meta).titles (sectionIndex pr meta).s2p).flatMap
        (fun s => s.spans) := rfl
  rw [hb, List.mem_flatMap] at hsp
  obtain ⟨sec, hsec, hspan⟩ := hsp
  unfold makeSections at hsec
  obtain ⟨sid, hsmem, rfl⟩ := List.mem_map.mp hsec
  dsimp only at hspan
  rw [List.mem_filterMap] at hspan
  obtain ⟨p, hp, hlk⟩ := hspan
  obtain ⟨hv, hmem⟩ := lookup_tabulate _ _ _ _ hlk
  exact ⟨p, hmem, hv⟩

theorem empty_vi_issue_mem (b : Bundle) (names : List String) (sp : Span)
    (hsp : sp ∈ allSpans b) (h : pstrip sp.vi = "") :
    (⟨"WARN", "EMPTY_VI", sp.aid ++ " has empty Vietnamese text"⟩ : ValidationIssue)
      ∈ validate_bundle b names := by
  unfold validate_bundle
  refine List.mem_append.mpr (Or.inl (List.mem_append.mpr (Or.inr ?_)))
  unfold checkTexts
  rw [List.mem_flatMap]
  exact ⟨sp, hsp, by simp [h]⟩

theorem empty_en_issue_mem (b : Bundle) (names : List String) (sp : Span)
    (hsp : sp ∈ allSpans b) (h : pstrip sp.en = "") :
    (⟨"WARN", "EMPTY_EN", sp.aid ++ " has empty English text"⟩ : ValidationIssue)
      ∈ validate_bundle b names := by
  unfold validate_bundle
  refine List.mem_append.mpr (Or.inl (List.mem_append.mpr (Or.inr ?_)))
  unfold checkTexts
  rw [List.mem_flatMap]
  refine ⟨sp, hsp, ?_⟩
  by_cases hvi : pstrip sp.vi = "" <;> simp [h, hvi]

/-- Amended claim C6: in a build where BOTH per-page text mappings are empty
(so the authoritative page set falls back to the image-derived pages), every
image-derived page receives a Span with empty source and target text; the
validator emits EMPTY_VI and EMPTY_EN warnings for every such Span that
belongs to a section; and it emits no MISSING_IMAGE warning for a page whose
number is derivable by digit extraction from some image filename. -/
theorem c6_image_only_build (doc : String) (names : List String)
    (vi : List (Nat × String)) (pr : EnParseResult)
    (meta : Option (List SectionMeta)) (ft : Option String) (pg : Nat) (sp : Span)
    (hvi : vi = []) (hen : pr.en_by_page = [])
    (hpg : pg ∈ (pagesFromImages names).map PageImage.page)
    (hsp : sp ∈ allSpans (build_bundle doc names vi pr meta ft))
    (hpage : sp.page = pg)
    (himg : pg ∈ (imgIndex names).map Prod.fst) :
    pg ∈ orderedPages names vi pr ∧
    (spanFor doc vi pr (sectionIndex pr meta).p2s pg).vi = "" ∧
    (spanFor doc vi pr (sectionIndex pr meta).p2s pg).en = "" ∧
    ((⟨"WARN", "EMPTY_VI", sp.aid ++ " has empty Vietnamese text"⟩ : ValidationIssue)
      ∈ validate_bundle (build_bundle doc names vi pr meta ft) names) ∧
    ((⟨"WARN", "EMPTY_EN", sp.aid ++ " has empty English text"⟩ : ValidationIssue)
      ∈ validate_bundle (build_bundle doc names vi pr meta ft) names) ∧
    pg ∉ missingImagePages (build_bundle doc names vi pr meta ft) names := by
  obtain ⟨p, hpmem, hspan⟩ :=
    allSpans_build_mem doc names vi pr meta ft sp hsp
  have hspage : sp.page = p := by rw [hspan]; rfl
  have hppg : p = pg := by rw [← hspage, hpage]
  subst hppg
  have hvi0 : (spanFor doc vi pr (sectionIndex pr meta).p2s p).vi = "" := by
    rw [hvi]; rfl
  have hen0 : (spanFor doc vi pr (sectionIndex pr meta).p2s p).en = "" := by
    unfold spanFor
    rw [hen]
    rfl
  refine ⟨hpmem, hvi0, hen0, ?_, ?_, ?_⟩
  · refine empty_vi_issue_mem _ names sp hsp ?_
    rw [hspan, hvi0]
    rfl
  · refine empty_en_issue_mem _ names sp hsp ?_
    rw [hspan, hen0]
    rfl
  · intro hmem
    have hnone := (List.mem_filter.mp hmem).2
    rw [Option.isNone_iff_eq_none] at hnone
    have hsome := keys_lookup_isSome himg
    rw [hnone] at hsome
    simp at hsome

/-- Witness for the amended C6: two image-only pages, a section covering
both; page 2's Span carries a pending descriptor and triggers EMPTY_VI and
EMPTY_EN; no MISSING_IMAGE is raised for it. -/
theorem c6_image_only_build_witness :
    (([] : List (Nat × String)) = [] ∧ emptyPr.en_by_page = [] ∧
      (2 : Nat) ∈ (pagesFromImages namesTwoImages).map PageImage.page ∧
      spanFor "d" [] emptyPr (sectionIndex emptyPr (some metaOneSection)).p2s 2
        ∈ allSpans (build_bundle "d" namesTwoImages [] emptyPr (some metaOneSection) none) ∧
      (spanFor "d" [] emptyPr (sectionIndex emptyPr (some metaOneSection)).p2s 2).page = 2 ∧
      (2 : Nat) ∈ (imgIndex namesTwoImages).map Prod.fst) ∧
    ((2 : Nat) ∈ orderedPages namesTwoImages [] emptyPr ∧
      (spanFor "d" [] emptyPr (sectionIndex emptyPr (some metaOneSection)).p2s 2).vi = "" ∧
      (spanFor "d" [] emptyPr (sectionIndex emptyPr (some metaOneSection)).p2s 2).en = "" ∧
      ((⟨"WARN", "EMPTY_VI",
          (spanFor "d" [] emptyPr (sectionIndex emptyPr (some metaOneSection)).p2s 2).aid
            ++ " has empty Vietnamese text"⟩ : ValidationIssue)
        ∈ validate_bundle (build_bundle "d" namesTwoImages [] emptyPr
            (some metaOneSection) none) namesTwoImages) ∧
      ((⟨"WARN", "EMPTY_EN",
          (spanFor "d" [] emptyPr (sectionIndex emptyPr (some metaOneSection)).p2s 2).aid
            ++ " has empty English text"⟩ : ValidationIssue)
        ∈ validate_bundle (build_bundle "d" namesTwoImages [] emptyPr
            (some metaOneSection) none) namesTwoImages) ∧
      (2 : Nat) ∉ missingImagePages (build_bundle "d" namesTwoImages [] emptyPr
          (some metaOneSection) none) namesTwoImages) :=
  ⟨⟨rfl, rfl, by decide, by decide, rfl, by decide⟩,
    c6_image_only_build "d" namesTwoImages [] emptyPr (some metaOneSection) none 2
      (spanFor "d" [] emptyPr (sectionIndex emptyPr (some metaOneSection)).p2s 2)
      rfl rfl (by decide) (by decide) rfl (by decide)⟩

/-! ## Claim C3 — amended theorem and supporting lemmas -/

theorem dset_values {κ ν : Type} [DecidableEq κ] (P : ν → Prop)
    (d : List (κ × ν)) (k : κ) (v : ν)
    (hd : ∀ kv ∈ d, P kv.2) (hv : P v) : ∀ kv ∈ dset d k v, P kv.2 := by
  induction d with
  | nil =>
    intro kv hkv
    simp [dset] at hkv
    rw [hkv]
    exact hv
  | cons kv0 rest ih =>
    intro kv hkv
    rw [dset] at hkv
    split at hkv
    · rcases List.mem_cons.mp hkv with rfl | hm
      · exact hv
      · exact hd kv (List.mem_cons_of_mem _ hm)
    · rcases List.mem_cons.mp hkv with rfl | hm
      · exact hd _ (List.mem_cons_self _ _)
      · exact ih (fun x hx => hd x (List.mem_cons_of_mem _ hx)) kv hm

theorem rangeIncl_nodup (a b : Nat) : (rangeIncl a b).Nodup :=
  (List.nodup_range _).map (fun x y h => by omega)

theorem dedupFirstSeen_nodup (pages : List Nat) : (dedupFirstSeen pages).Nodup := by
  unfold dedupFirstSeen
  refine foldl_inv (fun a : List Nat => a.Nodup) _ ?_ pages [] List.Pairwise.nil
  intro s a hs
  dsimp only
  split
  · exact hs
  · rename_i hna
    refine List.Nodup.append hs (List.nodup_singleton a) ?_
    intro x hx hx2
    simp at hx2
    subst hx2
    exact hna hx

theorem buildMeta_values_nodup (ms : List SectionMeta) :
    ∀ kv ∈ (buildAidIndexFromMeta ms).1, kv.2.Nodup := by
  unfold buildAidIndexFromMeta
  refine foldl_inv
    (fun acc : List (String × List Nat) × List (Nat × String) =>
      ∀ kv ∈ acc.1, kv.2.Nodup) _ ?_ ms ([], []) (by simp)
  intro s m hs
  exact dset_values _ _ _ _ hs (rangeIncl_nodup _ _)

theorem buildObserved_values_nodup (st : List (String × (String × String)))
    (sp : List (String × List Nat)) :
    ∀ kv ∈ (buildAidIndexFromObserved st sp).1, kv.2.Nodup := by
  unfold buildAidIndexFromObserved
  refine foldl_inv
    (fun acc : List (String × List Nat) × List (Nat × String) =>
      ∀ kv ∈ acc.1, kv.2.Nodup) _ ?_ sp ([], []) (by simp)
  intro s pr1 hs
  dsimp only
  split
  · exact hs
  · exact dset_values _ _ _ _ hs (dedupFirstSeen_nodup _)

theorem s2p_values_nodup (pr : EnParseResult) (meta : Option (List SectionMeta)) :
    ∀ kv ∈ (sectionIndex pr meta).s2p, kv.2.Nodup := by
  unfold sectionIndex
  split
  · exact buildMeta_values_nodup _
  · exact buildObserved_values_nodup _ _

theorem map_page_filterMap (tab : List (Nat × Span)) (pgl : List Nat)
    (htab : ∀ p v, tab.lookup p = some v → v.page = p) :
    (pgl.filterMap (fun p => tab.lookup p)).map Span.page
      = pgl.filter (fun p => (tab.lookup p).isSome) := by
  induction pgl with
  | nil => rfl
  | cons p ps ih =>
    rw [List.filterMap_cons, List.filter_cons]
    cases hl : tab.lookup p with
    | none => simpa using ih
    | some v => simp [htab p v hl, ih]

/-- Amended claim C3: whenever the assigned page lists of the bundle's
sections are pairwise disjoint (as they are for non-overlapping metadata
ranges, and as the validator's DUP_AID check otherwise reports), no two Span
occurrences across all sections of the bundle share a page number, and every
Span's AID is the page AID determined by the document and its page — hence
no page identifier occurs twice.  With overlapping assignments the invariant
fails (see the counterexample) and `validate_bundle` emits ERROR DUP_AID. -/
theorem c3_unique_pages_of_disjoint (doc : String) (names : List String)
    (vi : List (Nat × String)) (pr : EnParseResult)
    (meta : Option (List SectionMeta)) (ft : Option String)
    (hdisj : List.Pairwise
      (fun s1 s2 => ∀ p,
        p ∈ ((sectionIndex pr meta).s2p.lookup s1).getD [] →
        p ∉ ((sectionIndex pr meta).s2p.lookup s2).getD [])
      (sortedSids (sectionIndex pr meta).titles (sectionIndex pr meta).s2p)) :
    ((allSpans (build_bundle doc names vi pr meta ft)).map Span.page).Nodup ∧
    ∀ sp ∈ allSpans (build_bundle doc names vi pr meta ft),
      sp.aid = pAid doc sp.page := by
  constructor
  · have hb : allSpans (build_bundle doc names vi pr meta ft) =
        (makeSections ((orderedPages names vi pr).map
            (fun pg => (pg, spanFor doc vi pr (sectionIndex pr meta).p2s pg)))
          (sectionIndex pr meta).titles (sectionIndex pr meta).s2p).flatMap
          (fun s => s.spans) := rfl
    rw [hb, List.map_flatMap]
    unfold makeSections
    rw [List.flatMap_def, List.map_map]
    have hpt : ∀ p v,
        (((orderedPages names vi pr).map
          (fun pg => (pg, spanFor doc vi pr (sectionIndex pr meta).p2s pg))).lookup p)
          = some v → v.page = p := by
      intro p v h
      obtain ⟨hv, _⟩ := lookup_tabulate _ _ _ _ h
      rw [hv]
      rfl
    have hform : (List.map
        ((fun s => s.spans.map Span.page) ∘ (fun sid =>
          Section.mk sid
            (((sectionIndex pr meta).titles.lookup sid).getD ("", "")).1
            (((sectionIndex pr meta).titles.lookup sid).getD ("", "")).2
            ((((sectionIndex pr meta).s2p.lookup sid).getD []).filterMap
              (fun p => ((orderedPages names vi pr).map
                (fun pg => (pg, spanFor doc vi pr (sectionIndex pr meta).p2s pg))).lookup p))))
        (sortedSids (sectionIndex pr meta).titles (sectionIndex pr meta).s2p))
        = (List.map
          (fun sid => (((sectionIndex pr meta).s2p.lookup sid).getD []).filter
            (fun p => (((orderedPages names vi pr).map
              (fun pg => (pg, spanFor doc vi pr (sectionIndex pr meta).p2s pg))).lookup p).isSome))
          (sortedSids (sectionIndex pr meta).titles (sectionIndex pr meta).s2p)) := by
      refine List.map_congr_left ?_
      intro sid hsid
      exact map_page_filterMap _ _ hpt
    rw [hform]
    rw [List.nodup_flatten]
    constructor
    · intro l hl
      obtain ⟨sid, hsid, rfl⟩ := List.mem_map.mp hl
      refine List.Nodup.filter _ ?_
      cases hlk : (sectionIndex pr meta).s2p.lookup sid with
      | none => simp
      | some pgl =>
        simpa using s2p_values_nodup pr meta (sid, pgl) (lookup_mem hlk)
    · rw [List.pairwise_map]
      refine hdisj.imp ?_
      intro s1 s2 h12
      intro a ha1 ha2
      have hm1 := (List.mem_filter.mp ha1).1
      have hm2 := (List.mem_filter.mp ha2).1
      exact h12 a hm1 hm2
  · intro sp hsp
    obtain ⟨p, hpm, rfl⟩ := allSpans_build_mem doc names vi pr meta ft sp hsp
    rfl

/-- Witness for the amended C3 at a build with a single section (page lists
trivially pairwise disjoint). -/
theorem c3_unique_pages_of_disjoint_witness :
    (List.Pairwise
      (fun s1 s2 => ∀ p,
        p ∈ ((sectionIndex emptyPr (some metaOneSection)).s2p.lookup s1).getD [] →
        p ∉ ((sectionIndex emptyPr (some metaOneSection)).s2p.lookup s2).getD [])
      (sortedSids (sectionIndex emptyPr (some metaOneSection)).titles
        (sectionIndex emptyPr (some metaOneSection)).s2p)) ∧
    (((allSpans (build_bundle "d" namesTwoImages [] emptyPr
        (some metaOneSection) none)).map Span.page).Nodup ∧
      ∀ sp ∈ allSpans (build_bundle "d" namesTwoImages [] emptyPr
          (some metaOneSection) none),
        sp.aid = pAid "d" sp.page) :=
  ⟨by decide,
    c3_unique_pages_of_disjoint "d" namesTwoImages [] emptyPr
      (some metaOneSection) none (by decide)⟩

/-! ## Claim C4 — amended theorem and supporting lemmas -/

theorem itertext_leaf (c : XML) (hc : c.children = []) : itertext c = c.textStr := by
  cases c with
  | elem t a tx cs tl =>
    have hcs : cs = [] := hc
    subst hcs
    show tx ++ itertextList [] = tx
    rw [show itertextList [] = "" from rfl]
    exact String.append_empty tx

theorem preorderList_leaves (cs : List XML) (h : ∀ c ∈ cs, c.children = []) :
    preorderList cs = cs := by
  induction cs with
  | nil => rfl
  | cons c cs ih =>
    have hc : c.children = [] := h c (List.mem_cons_self _ _)
    have hpre : preorder c = [c] := by
      cases c with
      | elem t a tx cs0 tl =>
        have : cs0 = [] := hc
        subst this
        rfl
    rw [preorderList, hpre, ih (fun x hx => h x (List.mem_cons_of_mem _ hx))]
    rfl

theorem allChunks_cons (k : Nat) (l : List String) (rest : List (Nat × List String)) :
    allChunks ((k, l) :: rest) = l ++ allChunks rest := rfl

theorem allChunks_bpush (b : List (Nat × List String)) (pg : Nat) (t : String) :
    (allChunks (bpush b pg t)).Perm (allChunks b ++ [t]) := by
  induction b with
  | nil => simp [bpush, allChunks]
  | cons kv rest ih =>
    obtain ⟨k, l⟩ := kv
    rw [bpush]
    split
    · rw [allChunks_cons, allChunks_cons, List.append_assoc, List.append_assoc]
      exact List.Perm.append_left l List.perm_append_comm
    · rw [allChunks_cons, allChunks_cons, List.append_assoc]
      exact List.Perm.append_left l ih

/-- Folding the VI step over childless nodes: the multiset of stored chunks
grows by exactly the non-blank texts of the non-marker nodes. -/
theorem viFold_leaves (cs : List XML) (st : ViState)
    (h1 : ∀ c ∈ cs, c.children = []) :
    (allChunks (viFold (cs.map (fun n => (false, n))) st).buckets).Perm
      (allChunks st.buckets ++ cs.flatMap (fun c =>
        if c.tagLower = "pagebreak" then []
        else if pstrip c.textStr ≠ "" then [c.textStr] else [])) := by
  induction cs generalizing st with
  | nil => simp [viFold]
  | cons c cs ih =>
    have hlc := h1 c (List.mem_cons_self _ _)
    have hstep : viFold ((c :: cs).map (fun n => (false, n))) st
        = viFold (cs.map (fun n => (false, n))) (viStep st false c) := rfl
    rw [hstep]
    refine (ih (viStep st false c) (fun x hx => h1 x (List.mem_cons_of_mem _ hx))).trans ?_
    rw [List.flatMap_cons]
    rw [← List.append_assoc]
    refine List.Perm.append_right _ ?_
    unfold viStep
    by_cases hpb : c.tagLower = "pagebreak"
    · rw [if_pos hpb, if_pos hpb]
      cases extractDigits (c.attrGet "page") <;> simp
    · rw [if_neg hpb, if_neg hpb]
      show (allChunks (if pstrip (itertext c) ≠ "" then
          { st with buckets := bpush st.buckets st.page (itertext c) } else st).buckets).Perm
        (allChunks st.buckets ++ (if pstrip c.textStr ≠ "" then [c.textStr] else []))
      rw [itertext_leaf c hlc]
      by_cases htx : pstrip c.textStr ≠ ""
      · rw [if_pos htx, if_pos htx]
        exact allChunks_bpush st.buckets st.page c.textStr
      · rw [if_neg htx, if_neg htx]
        simp

/-- Amended claim C4: for flat transcripts — every element below the root is
a childless child of the root with blank tail, and page-break markers carry
no text — the chunks attributed to the page buckets are exactly (as a
multiset) the non-blank text chunks reachable from the transcript: nothing
is dropped and nothing is attributed twice.  For nested elements or
non-blank tails the property fails (see the counterexample): a nested text
is also swept up in its ancestors' flattened text, and tails are dropped. -/
theorem c4_flat_exact_attribution (tg : String) (ats : List (String × String))
    (tx tl : String) (cs : List XML)
    (hroot : strLower tg ≠ "pagebreak")
    (h1 : ∀ c ∈ cs, c.children = [])
    (h2 : ∀ c ∈ cs, pstrip c.tailStr = "")
    (h3 : ∀ c ∈ cs, c.tagLower = "pagebreak" → pstrip c.textStr = "") :
    (allChunks (viBuckets (XML.elem tg ats tx cs tl))).Perm
      (reachableChunks (XML.elem tg ats tx cs tl)) := by
  have htrav : viTraversal (XML.elem tg ats tx cs tl)
      = (true, XML.elem tg ats tx cs tl) :: cs.map (fun n => (false, n)) := by
    unfold viTraversal
    rw [show (XML.elem tg ats tx cs tl).children = cs from rfl, preorderList_leaves cs h1]
  have hroot1 : viStep ⟨1, []⟩ true (XML.elem tg ats tx cs tl)
      = ⟨1, if pstrip tx ≠ "" then [(1, [tx])] else []⟩ := by
    unfold viStep
    rw [if_neg (show ¬ (XML.elem tg ats tx cs tl).tagLower = "pagebreak" from hroot)]
    show (if pstrip tx ≠ "" then
        { page := 1, buckets := bpush ([] : List (Nat × List String)) 1 tx }
      else ViState.mk 1 []) = _
    by_cases htx : pstrip tx ≠ ""
    · rw [if_pos htx, if_pos htx]
      rfl
    · rw [if_neg htx, if_neg htx]
  have hfold : viBuckets (XML.elem tg ats tx cs tl)
      = (viFold (cs.map (fun n => (false, n)))
          ⟨1, if pstrip tx ≠ "" then [(1, [tx])] else []⟩).buckets := by
    unfold viBuckets
    rw [htrav]
    rw [show viFold ((true, XML.elem tg ats tx cs tl) :: cs.map (fun n => (false, n))) ⟨1, []⟩
        = viFold (cs.map (fun n => (false, n)))
            (viStep ⟨1, []⟩ true (XML.elem tg ats tx cs tl)) from rfl]
    rw [hroot1]
  rw [hfold]
  refine (viFold_leaves cs _ h1).trans ?_
  have hreach : reachableChunks (XML.elem tg ats tx cs tl)
      = (if pstrip tx ≠ "" then [tx] else []) ++ cs.flatMap (fun c =>
          if c.tagLower = "pagebreak" then []
          else if pstrip c.textStr ≠ "" then [c.textStr] else []) := by
    unfold reachableChunks
    rw [show (XML.elem tg ats tx cs tl).children = cs from rfl, preorderList_leaves cs h1,
      show (XML.elem tg ats tx cs tl).textStr = tx from rfl]
    congr 1
    rw [List.flatMap_def, List.flatMap_def]
    congr 1
    refine List.map_congr_left ?_
    intro c hc
    have ht2 : ¬ (pstrip c.tailStr ≠ "") := by simp [h2 c hc]
    rw [if_neg ht2, List.append_nil]
    by_cases hpb : c.tagLower = "pagebreak"
    · have ht3 : ¬ (pstrip c.textStr ≠ "") := by simp [h3 c hc hpb]
      rw [if_pos hpb, if_neg ht3]
    · rw [if_neg hpb]
  rw [hreach]
  have hbk : allChunks (if pstrip tx ≠ "" then [((1 : Nat), [tx])] else [])
      = (if pstrip tx ≠ "" then [tx] else []) := by
    by_cases htx : pstrip tx ≠ "" <;> simp [htx, allChunks]
  rw [hbk]

/-- Witness for the amended C4: a flat transcript with two paragraphs, one
empty-text page-break marker, and a further paragraph. -/
theorem c4_flat_exact_attribution_witness :
    (strLower "doc" ≠ "pagebreak" ∧
      (∀ c ∈ [XML.elem "p" [] "chunk one" [] "",
          XML.elem "pagebreak" [("page", "3")] "" [] "",
          XML.elem "p" [] "chunk two" [] ""], c.children.isEmpty = true) ∧
      (∀ c ∈ [XML.elem "p" [] "chunk one" [] "",
          XML.elem "pagebreak" [("page", "3")] "" [] "",
          XML.elem "p" [] "chunk two" [] ""], pstrip c.tailStr = "") ∧
      (∀ c ∈ [XML.elem "p" [] "chunk one" [] "",
          XML.elem "pagebreak" [("page", "3")] "" [] "",
          XML.elem "p" [] "chunk two" [] ""],
        c.tagLower = "pagebreak" → pstrip c.textStr = "")) ∧
    (allChunks (viBuckets (XML.elem "doc" [] "intro"
        [XML.elem "p" [] "chunk one" [] "",
          XML.elem "pagebreak" [("page", "3")] "" [] "",
          XML.elem "p" [] "chunk two" [] ""] ""))).Perm
      (reachableChunks (XML.elem "doc" [] "intro"
        [XML.elem "p" [] "chunk one" [] "",
          XML.elem "pagebreak" [("page", "3")] "" [] "",
          XML.elem "p" [] "chunk two" [] ""] "")) :=
  ⟨⟨by decide, by decide, by decide, by decide⟩,
    c4_flat_exact_attribution "doc" [] "intro" ""
      [XML.elem "p" [] "chunk one" [] "",
        XML.elem "pagebreak" [("page", "3")] "" [] "",
        XML.elem "p" [] "chunk two" [] ""]
      (by decide)
      (by
        intro c hc
        fin_cases hc <;> rfl)
      (by decide) (by decide)⟩

/-! ## Claim C10 — amended theorem

`_norm` is not idempotent (see the counterexample): blanking a
whitespace-only line creates a newline run the collapse pass never saw.  A
second application can only collapse such runs, and a third changes nothing:
`_norm (_norm (_norm s)) = _norm (_norm s)`.  The development characterizes
the strings `_norm` produces and shows a second application lands in the
fixed points of `_norm`. -/

/-- No two adjacent horizontal-whitespace characters. -/
def NoHH (a b : Char) : Prop := ¬ (isHWS a = true ∧ isHWS b = true)

/-- Adjacency discipline of normalized text: no two adjacent horizontal
whitespace characters, and no horizontal whitespace adjacent to a newline. -/
def Good2 (a b : Char) : Prop :=
  ¬ (isHWS a = true ∧ isHWS b = true) ∧ ¬ (isHWS a = true ∧ b = '\n')
    ∧ ¬ (a = '\n' ∧ isHWS b = true)

/-- The invariant satisfied by the output of `normL`: every horizontal
whitespace character is a plain space, the `Good2` adjacency discipline
holds, and the string is stripped. -/
structure GoodStr (t : List Char) : Prop where
  mem : ∀ c ∈ t, isHWS c = true → c = ' '
  chain : List.Chain' Good2 t
  stripped : stripL t = t

theorem head?_dropWhile_not {p : Char → Bool} {l : List Char} {h : Char}
    (hh : (l.dropWhile p).head? = some h) : p h = false := by
  induction l with
  | nil => simp at hh
  | cons c rest ih =>
    rw [List.dropWhile_cons] at hh
    split at hh
    · exact ih hh
    · rename_i hc
      simp at hh
      subst hh
      exact Bool.not_eq_true _ ▸ hc

theorem suffix_getLast? {X Y : List Char} (hs : X <:+ Y) (hne : X ≠ []) :
    Y.getLast? = X.getLast? := by
  obtain ⟨pre, rfl⟩ := hs
  rw [List.getLast?_append]
  cases hX : X.getLast? with
  | none => exact absurd (List.getLast?_eq_none_iff.mp hX) hne
  | some v => rfl

theorem stripBy_head?_not (p : Char → Bool) (t : List Char) (h : Char)
    (hh : (stripBy p t).head? = some h) : p h = false := by
  unfold stripBy at hh
  rw [List.head?_reverse] at hh
  have hne : ((t.dropWhile p).reverse.dropWhile p) ≠ [] := by
    intro he
    rw [he] at hh
    simp at hh
  rw [← suffix_getLast? (List.dropWhile_suffix p) hne, List.getLast?_reverse] at hh
  exact head?_dropWhile_not hh

theorem stripBy_getLast?_not (p : Char → Bool) (t : List Char) (h : Char)
    (hh : (stripBy p t).getLast? = some h) : p h = false := by
  unfold stripBy at hh
  rw [List.getLast?_reverse] at hh
  exact head?_dropWhile_not hh

theorem stripBy_eq_self (p : Char → Bool) (t : List Char)
    (hh : ∀ h, t.head? = some h → p h = false)
    (hl : ∀ h, t.getLast? = some h → p h = false) : stripBy p t = t := by
  have h1 : t.dropWhile p = t := by
    cases t with
    | nil => rfl
    | cons c rest =>
      rw [List.dropWhile_cons, if_neg]
      simp [hh c rfl]
  unfold stripBy
  rw [h1]
  have h2 : t.reverse.dropWhile p = t.reverse := by
    cases hr : t.reverse with
    | nil => rfl
    | cons c rest =>
      have hc : t.getLast? = some c := by
        rw [← List.head?_reverse, hr]
        rfl
      rw [List.dropWhile_cons, if_neg]
      simp [hl c hc]
  rw [h2, List.reverse_reverse]

theorem stripBy_idem (p : Char → Bool) (t : List Char) :
    stripBy p (stripBy p t) = stripBy p t :=
  stripBy_eq_self p _ (fun h hh => stripBy_head?_not p t h hh)
    (fun h hh => stripBy_getLast?_not p t h hh)

theorem stripBy_isInfix (p : Char → Bool) (t : List Char) : stripBy p t <:+: t := by
  have h1 : t.dropWhile p <:+ t := List.dropWhile_suffix p
  have h2 : stripBy p t <+: t.dropWhile p := by
    rw [← List.reverse_suffix]
    unfold stripBy
    rw [List.reverse_reverse]
    exact List.dropWhile_suffix p
  exact (h2.isInfix).trans (h1.isInfix)

theorem fixCR_id (t : List Char) (h : ('\r' : Char) ∉ t) : fixCR t = t := by
  induction t with
  | nil => rfl
  | cons c rest ih =>
    have hc : c ≠ '\r' := fun he => h (he ▸ List.mem_cons_self _ _)
    have hrest : ('\r' : Char) ∉ rest := fun hm => h (List.mem_cons_of_mem _ hm)
    cases rest with
    | nil =>
      show fixCR [c] = [c]
      rw [fixCR, if_neg hc]
    | cons d rest2 =>
      rw [fixCR, if_neg hc, ih hrest]

theorem good2_nl_nl : Good2 '\n' '\n' := by
  refine ⟨?_, ?_, ?_⟩ <;> simp [isHWS]

theorem chainOfInfix {R : Char → Char → Prop} {l m : List Char}
    (h : List.Chain' R m) (hs : l <:+: m) : List.Chain' R l :=
  List.Chain'.infix h hs

theorem getLast?_cons_of_ne_nil {a : Char} {l : List Char} (h : l ≠ []) :
    (a :: l).getLast? = l.getLast? := by
  cases l with
  | nil => exact absurd rfl h
  | cons b m => exact List.getLast?_cons_cons

theorem collapseNLAux_head0 (l : List Char) :
    (collapseNLAux 0 l).head? = l.head? := by
  cases l with
  | nil => rfl
  | cons c rest =>
    rw [collapseNLAux]
    split
    · rename_i hc
      subst hc
      simp
    · rfl

theorem collapseNLAux_getLast (l : List Char) (c : Char) (hc : c ≠ '\n') :
    ∀ (seen : Nat), l.getLast? = some c →
      (collapseNLAux seen l).getLast? = some c := by
  induction l with
  | nil => intro seen hl; simp at hl
  | cons a rest ih =>
    intro seen hl
    cases rest with
    | nil =>
      have hac : a = c := by simpa using hl
      subst hac
      rw [collapseNLAux]
      split
      · rename_i ha
        exact absurd ha hc
      · rfl
    | cons b rest2 =>
      have hlast : (b :: rest2).getLast? = some c := by
        rwa [List.getLast?_cons_cons] at hl
      rw [collapseNLAux]
      split
      · rw [List.getLast?_append, ih (seen + 1) hlast]
        rfl
      · have h2 := ih 0 hlast
        have hne : collapseNLAux 0 (b :: rest2) ≠ [] := by
          intro he
          rw [he] at h2
          simp at h2
        rw [getLast?_cons_of_ne_nil hne]
        exact h2

theorem collapseNLAux_mem (l : List Char) :
    ∀ (seen : Nat) (c : Char), c ∈ collapseNLAux seen l → c ∈ l ∨ c = '\n' := by
  induction l with
  | nil => intro seen c hcm; simp [collapseNLAux] at hcm
  | cons a rest ih =>
    intro seen c hcm
    rw [collapseNLAux] at hcm
    split at hcm
    · rcases List.mem_append.mp hcm with hm | hm
      · right
        rcases List.mem_ite_nil_right.mp hm with ⟨_, hm2⟩
        simpa using hm2
      · rcases ih (seen + 1) c hm with hm2 | hm2
        · exact Or.inl (List.mem_cons_of_mem _ hm2)
        · exact Or.inr hm2
    · rcases List.mem_cons.mp hcm with rfl | hm
      · exact Or.inl (List.mem_cons_self _ _)
      · rcases ih 0 c hm with hm2 | hm2
        · exact Or.inl (List.mem_cons_of_mem _ hm2)
        · exact Or.inr hm2

theorem collapseNLAux_head (l : List Char) :
    ∀ (seen : Nat) (h : Char), (collapseNLAux seen l).head? = some h →
      h = '\n' ∨ ∃ pre post, l = pre ++ h :: post ∧ ∀ x ∈ pre, x = '\n' := by
  induction l with
  | nil => intro seen h hh; simp [collapseNLAux] at hh
  | cons c rest ih =>
    intro seen h hh
    rw [collapseNLAux] at hh
    split at hh
    · rename_i hc
      by_cases hs : seen < 2
      · rw [if_pos hs] at hh
        simp at hh
        exact Or.inl hh.symm
      · rw [if_neg hs] at hh
        simp only [List.nil_append] at hh
        rcases ih (seen + 1) h hh with h1 | ⟨pre, post, heq, hpre⟩
        · exact Or.inl h1
        · refine Or.inr ⟨c :: pre, post, by rw [heq]; rfl, ?_⟩
          intro x hx
          rcases List.mem_cons.mp hx with rfl | hx2
          · exact hc
          · exact hpre x hx2
    · have hch : c = h := by simpa using hh
      exact Or.inr ⟨[], rest, by rw [hch]; rfl, by intro x hx; simp at hx⟩

theorem all_nl_getLast {pre : List Char} (hne : pre ≠ [])
    (hpre : ∀ x ∈ pre, x = '\n') : pre.getLast? = some '\n' := by
  have hg := List.getLast?_eq_getLast pre hne
  rw [hg]
  rw [hpre _ (List.getLast_mem hne)]

theorem collapseNLAux_chain (l : List Char) (hch : List.Chain' Good2 l) :
    ∀ (seen : Nat), List.Chain' Good2 (collapseNLAux seen l) := by
  induction l with
  | nil => intro seen; simp [collapseNLAux]
  | cons c rest ih =>
    intro seen
    have hch' : List.Chain' Good2 rest := hch.tail
    have hpair : ∀ y ∈ rest.head?, Good2 c y := (List.chain'_cons'.mp hch).1
    rw [collapseNLAux]
    split
    · rename_i hc
      by_cases hs : seen < 2
      · rw [if_pos hs]
        show List.Chain' Good2 ('\n' :: collapseNLAux (seen + 1) rest)
        rw [List.chain'_cons']
        refine ⟨?_, ih hch' (seen + 1)⟩
        intro y hy
        rcases collapseNLAux_head rest (seen + 1) y hy with rfl | ⟨pre, post, heq, hpre⟩
        · exact good2_nl_nl
        · cases pre with
          | nil =>
            have hry : rest.head? = some y := by rw [heq]; rfl
            exact hc ▸ hpair y hry
          | cons p ps =>
            have hj := (List.chain'_append.mp (heq ▸ hch')).2.2
            have hx := all_nl_getLast (List.cons_ne_nil p ps) hpre
            exact hj '\n' hx y rfl
      · rw [if_neg hs]
        simp only [List.nil_append]
        exact ih hch' (seen + 1)
    · rw [List.chain'_cons']
      refine ⟨?_, ih hch' 0⟩
      intro y hy
      rw [collapseNLAux_head0] at hy
      exact hpair y hy

/-- Invariant for collapsed text: at most `k` more newlines may open the
string, and every interior newline run has length at most 2. -/
def RLok : Nat → List Char → Prop
  | _, [] => True
  | k, c :: rest => if c = '\n' then 0 < k ∧ RLok (k - 1) rest else RLok 2 rest

theorem RLok_collapse (l : List Char) :
    ∀ (seen : Nat), RLok (2 - seen) (collapseNLAux seen l) := by
  induction l with
  | nil => intro seen; simp [collapseNLAux, RLok]
  | cons c rest ih =>
    intro seen
    rw [collapseNLAux]
    split
    · by_cases hs : seen < 2
      · rw [if_pos hs]
        show RLok (2 - seen) ('\n' :: collapseNLAux (seen + 1) rest)
        rw [RLok, if_pos rfl]
        refine ⟨by omega, ?_⟩
        have h2 : 2 - seen - 1 = 2 - (seen + 1) := by omega
        rw [h2]
        exact ih (seen + 1)
      · rw [if_neg hs]
        simp only [List.nil_append]
        have h2 : 2 - seen = 2 - (seen + 1) := by omega
        rw [h2]
        exact ih (seen + 1)
    · rename_i hc
      rw [RLok, if_neg hc]
      have h2 : (2 : Nat) = 2 - 0 := rfl
      rw [h2]
      exact ih 0

theorem collapse_of_RLok (t : List Char) :
    ∀ (k : Nat), k ≤ 2 → RLok k t → collapseNLAux (2 - k) t = t := by
  induction t with
  | nil => intro k hk hr; rfl
  | cons c rest ih =>
    intro k hk hr
    rw [collapseNLAux]
    split
    · rename_i hc
      rw [RLok, if_pos hc] at hr
      have hpos : 0 < k := hr.1
      rw [if_pos (by omega : 2 - k < 2)]
      have h2 : 2 - k + 1 = 2 - (k - 1) := by omega
      rw [h2, ih (k - 1) (by omega) hr.2]
      rw [hc]
      rfl
    · rename_i hc
      rw [RLok, if_neg hc] at hr
      have h0 : (0 : Nat) = 2 - 2 := rfl
      rw [show collapseNLAux 0 rest = collapseNLAux (2 - 2) rest from rfl,
        ih 2 (Nat.le_refl 2) hr]

theorem collapseNL_idem (l : List Char) :
    collapseNL (collapseNL l) = collapseNL l := by
  unfold collapseNL
  have h := RLok_collapse l 0
  have h2 := collapse_of_RLok (collapseNLAux 0 l) 2 (Nat.le_refl 2) h
  simpa using h2

theorem mem_of_head? {α : Type} {l : List α} {a : α} (h : l.head? = some a) :
    a ∈ l := by
  cases l with
  | nil => simp at h
  | cons b m =>
    simp at h
    exact h ▸ List.mem_cons_self _ _

theorem isHWS_nl : isHWS '\n' = false := by decide

theorem isHWS_of_not_isWS {c : Char} (h : isWS c = false) : isHWS c = false := by
  unfold isWS at h
  exact (Bool.or_eq_false_iff.mp h).1

theorem ne_nl_of_not_isWS {c : Char} (h : isWS c = false) : c ≠ '\n' := by
  intro he
  subst he
  simp [isWS, isHWS] at h

theorem collapseHWAux_mem (l : List Char) :
    ∀ (b : Bool) (c : Char), c ∈ collapseHWAux b l →
      c = ' ' ∨ (c ∈ l ∧ isHWS c = false) := by
  induction l with
  | nil => intro b c hc; simp [collapseHWAux] at hc
  | cons a rest ih =>
    intro b c hc
    rw [collapseHWAux] at hc
    split at hc
    · rcases List.mem_append.mp hc with hm | hm
      · left
        rcases List.mem_ite_nil_left.mp hm with ⟨_, hm2⟩
        simpa using hm2
      · rcases ih true c hm with hm2 | hm2
        · exact Or.inl hm2
        · exact Or.inr ⟨List.mem_cons_of_mem _ hm2.1, hm2.2⟩
    · rename_i ha
      rcases List.mem_cons.mp hc with rfl | hm
      · exact Or.inr ⟨List.mem_cons_self _ _, Bool.not_eq_true _ ▸ ha⟩
      · rcases ih false c hm with hm2 | hm2
        · exact Or.inl hm2
        · exact Or.inr ⟨List.mem_cons_of_mem _ hm2.1, hm2.2⟩

theorem collapseHWAux_head_true (l : List Char) :
    ∀ (h : Char), (collapseHWAux true l).head? = some h → isHWS h = false := by
  induction l with
  | nil => intro h hh; simp [collapseHWAux] at hh
  | cons a rest ih =>
    intro h hh
    rw [collapseHWAux] at hh
    split at hh
    · exact ih h (by simpa using hh)
    · rename_i ha
      have : a = h := by simpa using hh
      exact this ▸ (Bool.not_eq_true _ ▸ ha)

theorem collapseHWAux_chain (l : List Char) :
    ∀ (b : Bool), List.Chain' NoHH (collapseHWAux b l) := by
  induction l with
  | nil => intro b; simp [collapseHWAux]
  | cons a rest ih =>
    intro b
    rw [collapseHWAux]
    split
    · rename_i ha
      cases b with
      | true =>
        simpa using ih true
      | false =>
        show List.Chain' NoHH (' ' :: collapseHWAux true rest)
        rw [List.chain'_cons']
        refine ⟨?_, ih true⟩
        intro y hy
        intro hcon
        rw [collapseHWAux_head_true rest y hy] at hcon
        exact Bool.false_ne_true hcon.2
    · rename_i ha
      rw [List.chain'_cons']
      refine ⟨?_, ih false⟩
      intro y hy
      intro hcon
      exact ha hcon.1

theorem collapseHWAux_fixed (l : List Char)
    (hmem : ∀ c ∈ l, isHWS c = true → c = ' ')
    (hch : List.Chain' NoHH l) :
    ∀ (b : Bool), (b = true → ∀ h, l.head? = some h → isHWS h = false) →
      collapseHWAux b l = l := by
  induction l with
  | nil => intro b hb; rfl
  | cons a rest ih =>
    intro b hb
    have hch' : List.Chain' NoHH rest := hch.tail
    have hmem' : ∀ c ∈ rest, isHWS c = true → c = ' ' :=
      fun c hc => hmem c (List.mem_cons_of_mem _ hc)
    rw [collapseHWAux]
    split
    · rename_i ha
      cases b with
      | true => exact absurd (hb rfl a rfl) (by simp [ha])
      | false =>
        have hsp : a = ' ' := hmem a (List.mem_cons_self _ _) ha
        have hrest : collapseHWAux true rest = rest := by
          refine ih hmem' hch' true ?_
          intro _ h hh
          have hpair := (List.chain'_cons'.mp hch).1 h hh
          unfold NoHH at hpair
          by_cases hhws : isHWS h = true
          · exact absurd ⟨ha, hhws⟩ hpair
          · exact Bool.not_eq_true _ ▸ hhws
        rw [hrest, hsp]
        rfl
    · rw [ih hmem' hch' false (by intro hc; exact absurd hc Bool.false_ne_true)]

theorem splitNL_ne_nil (l : List Char) : splitNL l ≠ [] := by
  cases l with
  | nil => simp [splitNL]
  | cons c rest =>
    rw [splitNL]
    split
    · simp
    · split <;> simp

theorem joinNL_splitNL (l : List Char) : joinNL (splitNL l) = l := by
  induction l with
  | nil => rfl
  | cons c rest ih =>
    rw [splitNL]
    split
    · rename_i hc
      cases hX : splitNL rest with
      | nil => exact absurd hX (splitNL_ne_nil rest)
      | cons x xs =>
        rw [hX] at ih
        show joinNL ([] :: x :: xs) = c :: rest
        rw [joinNL, hc, List.nil_append, ih]
    · cases hX : splitNL rest with
      | nil => exact absurd hX (splitNL_ne_nil rest)
      | cons ln lns =>
        rw [hX] at ih
        cases lns with
        | nil =>
          show (c :: ln : List Char) = c :: rest
          rw [show joinNL [ln] = ln from rfl] at ih
          rw [ih]
        | cons m ms =>
          show joinNL ((c :: ln) :: m :: ms) = c :: rest
          rw [joinNL]
          rw [joinNL] at ih
          rw [List.cons_append, ih]

theorem splitNL_no_nl (l : List Char) :
    ∀ ln ∈ splitNL l, ('\n' : Char) ∉ ln := by
  induction l with
  | nil =>
    intro ln hln
    simp [splitNL] at hln
    simp [hln]
  | cons c rest ih =>
    intro ln hln
    rw [splitNL] at hln
    split at hln
    · rcases List.mem_cons.mp hln with rfl | hm
      · simp
      · exact ih ln hm
    · rename_i hc
      rcases hX : splitNL rest with _ | ⟨ln0, lns⟩
      · exact absurd hX (splitNL_ne_nil rest)
      · rw [hX] at hln
        rcases List.mem_cons.mp hln with rfl | hm
        · intro hmem
          rcases List.mem_cons.mp hmem with he | hm2
          · exact hc he.symm
          · exact ih ln0 (hX ▸ List.mem_cons_self _ _) hm2
        · exact ih ln (hX ▸ List.mem_cons_of_mem _ hm)

theorem splitNL_mem_subset (l : List Char) :
    ∀ ln ∈ splitNL l, ∀ c ∈ ln, c ∈ l := by
  induction l with
  | nil =>
    intro ln hln c hc
    simp [splitNL] at hln
    rw [hln] at hc
    simp at hc
  | cons a rest ih =>
    intro ln hln c hc
    rw [splitNL] at hln
    split at hln
    · rcases List.mem_cons.mp hln with rfl | hm
      · simp at hc
      · exact List.mem_cons_of_mem _ (ih ln hm c hc)
    · rcases hX : splitNL rest with _ | ⟨ln0, lns⟩
      · exact absurd hX (splitNL_ne_nil rest)
      · rw [hX] at hln
        rcases List.mem_cons.mp hln with rfl | hm
        · rcases List.mem_cons.mp hc with rfl | hm2
          · exact List.mem_cons_self _ _
          · exact List.mem_cons_of_mem _
              (ih ln0 (hX ▸ List.mem_cons_self _ _) c hm2)
        · exact List.mem_cons_of_mem _
            (ih ln (hX ▸ List.mem_cons_of_mem _ hm) c hc)

theorem splitNL_decomp (l : List Char) :
    ∀ ln lns, splitNL l = ln :: lns →
      (lns = [] ∧ l = ln) ∨
        ∃ rest2, l = ln ++ '\n' :: rest2 ∧ splitNL rest2 = lns := by
  induction l with
  | nil =>
    intro ln lns h
    simp [splitNL] at h
    exact Or.inl ⟨h.2, h.1.symm⟩
  | cons c rest ih =>
    intro ln lns h
    rw [splitNL] at h
    split at h
    · rename_i hc
      have h1 : ln = [] := by cases h; rfl
      have h2 : lns = splitNL rest := by cases h; rfl
      subst h1
      refine Or.inr ⟨rest, ?_, h2.symm⟩
      rw [hc]
      rfl
    · rcases hX : splitNL rest with _ | ⟨ln0, lns0⟩
      · exact absurd hX (splitNL_ne_nil rest)
      · rw [hX] at h
        have h1 : ln = c :: ln0 := by cases h; rfl
        have h2 : lns = lns0 := by cases h; rfl
        subst h1
        subst h2
        rcases ih ln0 lns (hX) with ⟨hln, hrest⟩ | ⟨rest2, hrest, hsp⟩
        · exact Or.inl ⟨hln, by rw [hrest]⟩
        · exact Or.inr ⟨rest2, by rw [hrest]; rfl, hsp⟩

theorem mem_of_getLast? {l : List Char} {a : Char} (h : l.getLast? = some a) :
    a ∈ l := by
  have hne : l ≠ [] := by
    intro he
    rw [he] at h
    simp at h
  rw [List.getLast?_eq_getLast l hne] at h
  injection h with h2
  exact h2 ▸ List.getLast_mem hne

theorem isWS_false_of {c : Char} (h1 : isHWS c = false) (h2 : c ≠ '\n') :
    isWS c = false := by
  unfold isWS
  rw [h1]
  simp [h2]

theorem head?_append_left {l1 l2 : List Char} {h : Char}
    (hh : l1.head? = some h) : (l1 ++ l2).head? = some h := by
  cases l1 with
  | nil => simp at hh
  | cons a m => simpa using hh

theorem good2_into_nl {a : Char} (h : isHWS a = false) : Good2 a '\n' := by
  refine ⟨?_, ?_, ?_⟩
  · intro hc
    rw [isHWS_nl] at hc
    exact Bool.false_ne_true hc.2
  · intro hc
    rw [h] at hc
    exact Bool.false_ne_true hc.1
  · intro hc
    rw [isHWS_nl] at hc
    exact Bool.false_ne_true hc.2

theorem good2_from_nl {b : Char} (h : isHWS b = false) : Good2 '\n' b := by
  refine ⟨?_, ?_, ?_⟩
  · intro hc
    rw [isHWS_nl] at hc
    exact Bool.false_ne_true hc.1
  · intro hc
    rw [isHWS_nl] at hc
    exact Bool.false_ne_true hc.1
  · intro hc
    rw [h] at hc
    exact Bool.false_ne_true hc.2

/-- The shape of a line produced by `lineNorm`: no newline, horizontal
whitespace only as single plain spaces, and no whitespace at either end. -/
structure GoodLineOut (x : List Char) : Prop where
  nonl : ('\n' : Char) ∉ x
  sp : ∀ c ∈ x, isHWS c = true → c = ' '
  chain : List.Chain' NoHH x
  headOK : ∀ h, x.head? = some h → isHWS h = false
  lastOK : ∀ h, x.getLast? = some h → isHWS h = false

theorem chain_good2_of_noHH (x : List Char) (hnl : ('\n' : Char) ∉ x)
    (hch : List.Chain' NoHH x) : List.Chain' Good2 x := by
  induction x with
  | nil => simp
  | cons a rest ih =>
    rw [List.chain'_cons'] at hch ⊢
    refine ⟨?_, ih (fun hm => hnl (List.mem_cons_of_mem _ hm)) hch.2⟩
    intro y hy
    have hy' : rest.head? = some y := hy
    have hyne : y ≠ '\n' := by
      intro he
      exact hnl (List.mem_cons_of_mem _ (he ▸ mem_of_head? hy'))
    have hane : a ≠ '\n' := fun he => hnl (he ▸ List.mem_cons_self _ _)
    exact ⟨hch.1 y hy, fun hc => hyne hc.2, fun hc => hane hc.1⟩

theorem joinNL_mem (L : List (List Char)) :
    ∀ c ∈ joinNL L, c = '\n' ∨ ∃ x ∈ L, c ∈ x := by
  induction L with
  | nil => intro c hc; simp [joinNL] at hc
  | cons x ys ih =>
    cases ys with
    | nil =>
      intro c hc
      exact Or.inr ⟨x, List.mem_cons_self _ _, hc⟩
    | cons y xs =>
      intro c hc
      rw [joinNL] at hc
      rcases List.mem_append.mp hc with hm | hm
      · exact Or.inr ⟨x, List.mem_cons_self _ _, hm⟩
      · rcases List.mem_cons.mp hm with rfl | hm2
        · exact Or.inl rfl
        · rcases ih c hm2 with h1 | ⟨z, hz, hcz⟩
          · exact Or.inl h1
          · exact Or.inr ⟨z, List.mem_cons_of_mem _ hz, hcz⟩

theorem joinNL_head (y : List Char) (ys : List (List Char)) (h : Char)
    (hh : (joinNL (y :: ys)).head? = some h) : y.head? = some h ∨ h = '\n' := by
  cases ys with
  | nil => exact Or.inl hh
  | cons z zs =>
    have hh2 : (y ++ '\n' :: joinNL (z :: zs)).head? = some h := hh
    cases hy : y.head? with
    | some c =>
      rw [head?_append_left hy] at hh2
      injection hh2 with hh3
      exact Or.inl (congrArg some hh3)
    | none =>
      have hynil : y = [] := List.head?_eq_none_iff.mp hy
      rw [hynil] at hh2
      simp at hh2
      exact Or.inr hh2.symm

theorem joinNL_chain (L : List (List Char))
    (hx : ∀ x ∈ L, GoodLineOut x) : List.Chain' Good2 (joinNL L) := by
  induction L with
  | nil => simp [joinNL]
  | cons x ys ih =>
    cases ys with
    | nil =>
      have hgx := hx x (List.mem_cons_self _ _)
      show List.Chain' Good2 x
      exact chain_good2_of_noHH x hgx.nonl hgx.chain
    | cons y xs =>
      have hgx := hx x (List.mem_cons_self _ _)
      show List.Chain' Good2 (x ++ '\n' :: joinNL (y :: xs))
      rw [List.chain'_append]
      refine ⟨chain_good2_of_noHH x hgx.nonl hgx.chain, ?_, ?_⟩
      · rw [List.chain'_cons']
        refine ⟨?_, ih (fun z hz => hx z (List.mem_cons_of_mem _ hz))⟩
        intro q hq
        have hq' : (joinNL (y :: xs)).head? = some q := hq
        rcases joinNL_head y xs q hq' with hqy | rfl
        · exact good2_from_nl
            ((hx y (List.mem_cons_of_mem _ (List.mem_cons_self _ _))).headOK q hqy)
        · exact good2_nl_nl
      · intro a ha b hb
        have hb' : ('\n' :: joinNL (y :: xs)).head? = some b := hb
        have hbn : '\n' = b := by simpa using hb'
        have ha' : x.getLast? = some a := ha
        rw [← hbn]
        exact good2_into_nl (hgx.lastOK a ha')

theorem lineNorm_goodOut (ln : List Char) (hnl : ('\n' : Char) ∉ ln) :
    GoodLineOut (lineNorm ln) := by
  have hsub : ∀ c ∈ lineNorm ln, c = ' ' ∨ (c ∈ ln ∧ isHWS c = false) := by
    intro c hc
    have hc2 : c ∈ collapseHW ln :=
      (stripBy_isInfix isWS (collapseHW ln)).subset hc
    exact collapseHWAux_mem ln false c hc2
  refine ⟨?_, ?_, ?_, ?_, ?_⟩
  · intro hm
    rcases hsub _ hm with h1 | h2
    · exact absurd h1 (by decide)
    · exact hnl h2.1
  · intro c hc hhws
    rcases hsub c hc with h1 | h2
    · exact h1
    · rw [h2.2] at hhws
      exact absurd hhws Bool.false_ne_true
  · exact chainOfInfix (collapseHWAux_chain ln false)
      (stripBy_isInfix isWS (collapseHW ln))
  · intro h hh
    exact isHWS_of_not_isWS (stripBy_head?_not isWS (collapseHW ln) h hh)
  · intro h hh
    exact isHWS_of_not_isWS (stripBy_getLast?_not isWS (collapseHW ln) h hh)

theorem splitNL_head_prefix (l ln : List Char) (lns : List (List Char))
    (h : splitNL l = ln :: lns) : ln <+: l := by
  rcases splitNL_decomp l ln lns h with ⟨_, rfl⟩ | ⟨rest2, rfl, _⟩
  · exact List.prefix_refl _
  · exact ⟨'\n' :: rest2, rfl⟩

/-- Invariant carried through the line decomposition of collapsed text:
whitespace discipline holds and neither end is horizontal whitespace. -/
structure LinesGood (w : List Char) : Prop where
  chain : List.Chain' Good2 w
  sp : ∀ c ∈ w, isHWS c = true → c = ' '
  headOK : ∀ h, w.head? = some h → isHWS h = false
  lastOK : ∀ h, w.getLast? = some h → isHWS h = false

theorem line_fixed (ln : List Char)
    (hsp : ∀ c ∈ ln, isHWS c = true → c = ' ')
    (hch : List.Chain' NoHH ln)
    (hh : ∀ h, ln.head? = some h → isWS h = false)
    (hl : ∀ h, ln.getLast? = some h → isWS h = false) :
    lineNorm ln = ln := by
  show stripBy isWS (collapseHWAux false ln) = ln
  rw [collapseHWAux_fixed ln hsp hch false
    (fun hf => absurd hf Bool.false_ne_true)]
  exact stripBy_eq_self isWS ln hh hl

theorem linesGood_fixed_aux :
    ∀ (n : Nat) (w : List Char), w.length ≤ n → LinesGood w →
      ∀ ln ∈ splitNL w, lineNorm ln = ln := by
  intro n
  induction n with
  | zero =>
    intro w hw hg ln hln
    have hwn : w = [] := List.length_eq_zero.mp (Nat.le_zero.mp hw)
    subst hwn
    simp [splitNL] at hln
    rw [hln]
    rfl
  | succ n ih =>
    intro w hw hg ln hln
    rcases hS : splitNL w with _ | ⟨ln0, lns⟩
    · exact absurd hS (splitNL_ne_nil w)
    rw [hS] at hln
    have hnl0 : ('\n' : Char) ∉ ln0 :=
      splitNL_no_nl w ln0 (hS ▸ List.mem_cons_self _ _)
    rcases splitNL_decomp w ln0 lns hS with ⟨h1, h2⟩ | ⟨rest2, hw2, hsp2⟩
    · subst h1
      rcases List.mem_cons.mp hln with heq | hm
      · subst heq
        subst h2
        refine line_fixed _ hg.sp
          (List.Chain'.imp (fun a b hab => hab.1) hg.chain) ?_ ?_
        · intro h hhd
          exact isWS_false_of (hg.headOK h hhd)
            (fun he => hnl0 (he ▸ mem_of_head? hhd))
        · intro h hlst
          exact isWS_false_of (hg.lastOK h hlst)
            (fun he => hnl0 (he ▸ mem_of_getLast? hlst))
      · simp at hm
    · subst hw2
      have hlen : rest2.length ≤ n := by
        simp [List.length_append] at hw
        omega
      have hchNL : List.Chain' Good2 ('\n' :: rest2) :=
        chainOfInfix hg.chain (List.IsSuffix.isInfix ⟨ln0, rfl⟩)
      rcases List.mem_cons.mp hln with rfl | hm
      · -- the first line, followed by a newline
        have hjunc := (List.chain'_append.mp hg.chain).2.2
        refine line_fixed ln
          (fun c hc => hg.sp c (List.mem_append_left _ hc))
          (List.Chain'.imp (fun a b hab => hab.1)
            (chainOfInfix hg.chain
              (List.IsPrefix.isInfix ⟨'\n' :: rest2, rfl⟩))) ?_ ?_
        · intro h hhd
          exact isWS_false_of (hg.headOK h (head?_append_left hhd))
            (fun he => hnl0 (he ▸ mem_of_head? hhd))
        · intro h hlst
          have hG : Good2 h '\n' := hjunc h (Option.mem_def.mpr hlst) '\n'
            (Option.mem_def.mpr rfl)
          have hhws : isHWS h = false := by
            by_cases hb : isHWS h = true
            · exact absurd ⟨hb, rfl⟩ hG.2.1
            · exact Bool.not_eq_true _ ▸ hb
          exact isWS_false_of hhws (fun he => hnl0 (he ▸ mem_of_getLast? hlst))
      · -- a later line: recurse on the text after the newline
        refine ih rest2 hlen ⟨?_, ?_, ?_, ?_⟩ ln (hsp2 ▸ hm)
        · exact chainOfInfix hg.chain (List.IsSuffix.isInfix
            (show rest2 <:+ ln0 ++ '\n' :: rest2 from
              ⟨ln0 ++ ['\n'], by rw [List.append_assoc]; rfl⟩))
        · intro c hc hhws
          exact hg.sp c
            (List.mem_append_right _ (List.mem_cons_of_mem _ hc)) hhws
        · intro h hhd
          have hG : Good2 '\n' h :=
            (List.chain'_cons'.mp hchNL).1 h (Option.mem_def.mpr hhd)
          by_cases hb : isHWS h = true
          · exact absurd ⟨rfl, hb⟩ hG.2.2
          · exact Bool.not_eq_true _ ▸ hb
        · intro h hlst
          have hne : rest2 ≠ [] := by
            intro he
            rw [he] at hlst
            simp at hlst
          have hw3 := suffix_getLast?
            (show rest2 <:+ ln0 ++ '\n' :: rest2 from
              ⟨ln0 ++ ['\n'], by rw [List.append_assoc]; rfl⟩) hne
          exact hg.lastOK h (by rw [hw3]; exact hlst)

theorem stripL_collapseNL_of_goodStr (t : List Char) (hg : GoodStr t) :
    stripL (collapseNL t) = collapseNL t := by
  show stripBy isWS (collapseNL t) = collapseNL t
  apply stripBy_eq_self
  · intro h hh
    rw [show collapseNL t = collapseNLAux 0 t from rfl, collapseNLAux_head0] at hh
    exact stripBy_head?_not isWS t h (by rw [show stripBy isWS t = t from hg.stripped]; exact hh)
  · intro h hh
    cases hT : t.getLast? with
    | none =>
      have ht : t = [] := List.getLast?_eq_none_iff.mp hT
      rw [ht] at hh
      simp [collapseNL, collapseNLAux] at hh
    | some c =>
      have hwsc : isWS c = false :=
        stripBy_getLast?_not isWS t c (by rw [show stripBy isWS t = t from hg.stripped]; exact hT)
      have hcn : c ≠ '\n' := ne_nl_of_not_isWS hwsc
      have h2 := collapseNLAux_getLast t c hcn 0 hT
      rw [show collapseNL t = collapseNLAux 0 t from rfl, h2] at hh
      injection hh with hh2
      rw [← hh2]
      exact hwsc

theorem goodStr_collapseNL (t : List Char) (hg : GoodStr t) :
    GoodStr (collapseNL t) := by
  refine ⟨?_, collapseNLAux_chain t hg.chain 0, stripL_collapseNL_of_goodStr t hg⟩
  intro c hc hhws
  rcases collapseNLAux_mem t 0 c hc with hm | rfl
  · exact hg.mem c hm hhws
  · exact absurd hhws (by decide)

theorem normL_of_goodStr (t : List Char) (hg : GoodStr t) :
    normL t = stripL (collapseNL t) := by
  have hr : ('\r' : Char) ∉ t := by
    intro hm
    exact absurd (hg.mem '\r' hm (by decide)) (by decide)
  have hLG : LinesGood (collapseNL t) := by
    refine ⟨collapseNLAux_chain t hg.chain 0, ?_, ?_, ?_⟩
    · intro c hc hhws
      rcases collapseNLAux_mem t 0 c hc with hm | rfl
      · exact hg.mem c hm hhws
      · exact absurd hhws (by decide)
    · intro h hh
      rw [show collapseNL t = collapseNLAux 0 t from rfl,
        collapseNLAux_head0] at hh
      exact isHWS_of_not_isWS
        (stripBy_head?_not isWS t h (by rw [show stripBy isWS t = t from hg.stripped]; exact hh))
    · intro h hh
      cases hT : t.getLast? with
      | none =>
        have ht : t = [] := List.getLast?_eq_none_iff.mp hT
        rw [ht] at hh
        simp [collapseNL, collapseNLAux] at hh
      | some c =>
        have hwsc : isWS c = false :=
          stripBy_getLast?_not isWS t c (by rw [show stripBy isWS t = t from hg.stripped]; exact hT)
        have hcn : c ≠ '\n' := ne_nl_of_not_isWS hwsc
        have h2 := collapseNLAux_getLast t c hcn 0 hT
        rw [show collapseNL t = collapseNLAux 0 t from rfl, h2] at hh
        injection hh with hh2
        rw [← hh2]
        exact isHWS_of_not_isWS hwsc
  unfold normL
  rw [fixCR_id t hr, show stripL t = t from hg.stripped]
  have hmap : (splitNL (collapseNL t)).map lineNorm = splitNL (collapseNL t) := by
    have h1 : (splitNL (collapseNL t)).map lineNorm
        = (splitNL (collapseNL t)).map id :=
      List.map_congr_left (fun ln hln =>
        linesGood_fixed_aux (collapseNL t).length (collapseNL t)
          (Nat.le_refl _) hLG ln hln)
    rw [h1, List.map_id]
  rw [hmap, joinNL_splitNL]

theorem goodStr_normL (l : List Char) : GoodStr (normL l) := by
  have hM : ∀ x ∈ (splitNL (collapseNL (stripL (fixCR l)))).map lineNorm,
      GoodLineOut x := by
    intro x hx
    rcases List.mem_map.mp hx with ⟨ln, hln, rfl⟩
    exact lineNorm_goodOut ln (splitNL_no_nl _ ln hln)
  unfold normL
  refine ⟨?_, ?_, ?_⟩
  · intro c hc hhws
    have hc2 : c ∈ joinNL ((splitNL (collapseNL (stripL (fixCR l)))).map lineNorm) :=
      (stripBy_isInfix isWS _).subset hc
    rcases joinNL_mem _ c hc2 with rfl | ⟨x, hx, hcx⟩
    · exact absurd hhws (by decide)
    · exact (hM x hx).sp c hcx hhws
  · exact chainOfInfix (joinNL_chain _ hM) (stripBy_isInfix isWS _)
  · exact stripBy_idem isWS _

theorem normL_norm_norm (l : List Char) :
    normL (normL (normL l)) = normL (normL l) := by
  have hu : GoodStr (normL l) := goodStr_normL l
  have h1 : normL (normL l) = collapseNL (normL l) := by
    rw [normL_of_goodStr (normL l) hu, stripL_collapseNL_of_goodStr (normL l) hu]
  have h2 : GoodStr (collapseNL (normL l)) := goodStr_collapseNL (normL l) hu
  calc normL (normL (normL l))
      = normL (collapseNL (normL l)) := by rw [h1]
    _ = stripL (collapseNL (collapseNL (normL l))) := normL_of_goodStr _ h2
    _ = stripL (collapseNL (normL l)) := by rw [collapseNL_idem]
    _ = collapseNL (normL l) := stripL_collapseNL_of_goodStr (normL l) hu
    _ = normL (normL l) := h1.symm

/-- C10 (amended): `_norm` is not idempotent in a single step — blanking a
whitespace-only line can create a new blank-line run that only the next
application collapses (see the counterexample) — but it stabilizes after two
applications: for every string, a third normalization returns the doubly
normalized string unchanged. -/
theorem c10_norm_eventually_idempotent (s : String) :
    norm (norm (norm s)) = norm (norm s) := by
  unfold norm
  refine congrArg String.mk ?_
  rw [show ∀ L : List Char, (String.mk L).data = L from fun L => rfl]
  exact normL_norm_norm s.data

end JVB
